import Mathlib

/-!
Verification of the script-generation and text-normalization subsystem of
`read-later-podcast` (`src/lib/script-gen.js`, plus `expandContent` from the
content-fetch module).  The JavaScript is shallowly embedded: strings become
`List Char`, each JavaScript `String.replace(regex, …)` call becomes a fueled
left-to-right scanner (`scanS`) whose step function reproduces the concrete
regex's matching behaviour (all the regexes involved are star-free enough that
their leftmost-match semantics is deterministic), and the parser loop becomes a
fold over the split lines.  Fuel equal to the input length always suffices
because every match consumes at least one character.
-/

namespace RLP

/-- ASCII whitespace as matched by the JavaScript `\s` class (the Unicode
whitespace code points, which never occur in the data handled here, are
omitted). -/
def isSpace (c : Char) : Bool :=
  c == ' ' || c == '\t' || c == '\n' || c == '\r' || c == '\x0b' || c == '\x0c'

/-- The JavaScript `\w` class (ASCII letters, digits, underscore). -/
def isWordChar (c : Char) : Bool :=
  c.isAlpha || c.isDigit || c == '_'

/-- JavaScript `String.prototype.trim` (restricted to the ASCII whitespace
above): drop leading whitespace. -/
def trimLeft (l : List Char) : List Char := l.dropWhile isSpace

/-- Drop trailing whitespace. -/
def trimRight (l : List Char) : List Char := (l.reverse.dropWhile isSpace).reverse

/-- JavaScript `String.prototype.trim`. -/
def jsTrim (l : List Char) : List Char := trimRight (trimLeft l)

/-- Case-insensitive literal-prefix matcher: `stripPrefixCI p l` returns the
remainder of `l` after the prefix `p` when `l` starts with `p` up to ASCII
case, and `none` otherwise.  This is the building block for each
case-insensitive literal in the source's regexes. -/
def stripPrefixCI : List Char → List Char → Option (List Char)
  | [], l => some l
  | _ :: _, [] => none
  | p :: ps, c :: cs =>
    if Char.toLower c == Char.toLower p then stripPrefixCI ps cs else none

/-- First case-insensitive match among a list of literal alternatives, in
order (regex alternation `(a|b|…)` over literals). -/
def stripFirstCI : List String → List Char → Option (List Char)
  | [], _ => none
  | w :: ws, l => stripPrefixCI w.data l <|> stripFirstCI ws l

/-- Boolean infix test on character lists. -/
def infixB (needle : List Char) : List Char → Bool
  | [] => needle.isEmpty
  | c :: t => needle.isPrefixOf (c :: t) || infixB needle t

/-- Lower-case an entire character list (for the `/i` regex flag). -/
def toLowerL (l : List Char) : List Char := l.map Char.toLower

/--
Generic fueled scanner modelling a global JavaScript
`str.replace(re, …)` whose matches are found left to right.  The state `s`
carries whether the previous character of the *original* string was a word
character (needed for `\b`); `step` attempts a match at the current position
and, on success, yields the replacement text, the successor state, and the
unconsumed remainder.  On failure the scanner emits one character and moves
on.  With fuel at least the input length the fuel never runs out, because
every step function used below consumes at least one character on a match.
-/
def scanS (step : Bool → List Char → Option (List Char × Bool × List Char)) :
    Nat → Bool → List Char → List Char
  | 0, _, l => l
  | _ + 1, _, [] => []
  | fuel + 1, s, c :: rest =>
    match step s (c :: rest) with
    | some (rep, s', rem) => rep ++ scanS step fuel s' rem
    | none => c :: scanS step fuel (isWordChar c) rest

/-- Run a scanner pass with adequate fuel. -/
def runScan (step : Bool → List Char → Option (List Char × Bool × List Char))
    (l : List Char) : List Char :=
  scanS step l.length false l

/-! ### Step functions for the `cleanText` replacement chain
(`src/lib/script-gen.js`, `cleanText`, lines 191–215). -/

/-- `.replace(/\[[^\]]+\]/g, '')`: a match is `[`, one or more non-`]`
characters (hence running to the first `]`), then `]`. -/
def bracketStep (_ : Bool) (l : List Char) : Option (List Char × Bool × List Char) :=
  match l with
  | '[' :: rest =>
    if rest.takeWhile (fun c => c != ']') == [] then none
    else
      match rest.dropWhile (fun c => c != ']') with
      | ']' :: rem => some ([], false, rem)
      | _ => none
  | _ => none

/-- The performance-verb stems of the parenthetical stage-direction regex in
`cleanText`. -/
def stems : List String :=
  ["laugh", "chuckl", "sigh", "paus", "smil", "nod", "grin", "shrug", "gesture",
   "lean", "point", "wave", "clear", "cough", "snort", "giggl", "beam", "wink", "rais"]

/-- Does a parenthesis body contain one of the verb stems (case-insensitively)? -/
def containsStem (content : List Char) : Bool :=
  stems.any (fun s => infixB s.data (toLowerL content))

/-- `.replace(/\([^)]*(?:laugh|…|rais)[^)]*\)/gi, '')`: a match is `(`, the
run of non-`)` characters up to the first `)` — which must contain a stem —
then `)`. -/
def parenStep (_ : Bool) (l : List Char) : Option (List Char × Bool × List Char) :=
  match l with
  | '(' :: rest =>
    match rest.dropWhile (fun c => c != ')') with
    | ')' :: rem =>
      if containsStem (rest.takeWhile (fun c => c != ')')) then some ([], false, rem)
      else none
    | _ => none
  | _ => none

/-- `.replace(/\*[^*]+\*/g, '')`: `*`, one or more non-`*` characters, `*`. -/
def astStep (_ : Bool) (l : List Char) : Option (List Char × Bool × List Char) :=
  match l with
  | '*' :: rest =>
    if rest.takeWhile (fun c => c != '*') == [] then none
    else
      match rest.dropWhile (fun c => c != '*') with
      | '*' :: rem => some ([], false, rem)
      | _ => none
  | _ => none

/-! #### The free-standing performance-verb phrase regex
`/\b(?:laughs?|chuckles?|sighs?|giggles?|snorts?|grins?|smiles?|beams?|winks?|nods?|shrugs?|pauses?|clears?\s+(?:his\s+|her\s+)?throat)(?:\s+(?:softly|…|dryly))*[.,;!?]?\s*/gi`
replaced by a single space.  Note the pattern has no trailing `\b`, so a verb
word may match inside a longer word provided a word boundary precedes it. -/

/-- Consume an optional trailing `s` (the regex `s?`, case-insensitive). -/
def optS (l : List Char) : List Char :=
  match l with
  | c :: r => if Char.toLower c == 's' then r else l
  | [] => l

/-- The twelve simple verb alternatives, in the regex's order; each literal is
followed by `s?`. -/
def verbWords : List String :=
  ["laugh", "chuckle", "sigh", "giggle", "snort", "grin", "smile", "beam",
   "wink", "nod", "shrug", "pause"]

/-- `\s+` : require at least one whitespace character, consume the run. -/
def ws1 (l : List Char) : Option (List Char) :=
  match l with
  | c :: r => if isSpace c then some (r.dropWhile isSpace) else none
  | [] => none

/-- The optional possessive group `(?:his\s+|her\s+)?`: taken only when the
whole group (word and following whitespace) matches. -/
def hisHer (r : List Char) : List Char :=
  match (stripPrefixCI "his".data r).bind ws1 with
  | some r2 => r2
  | none =>
    match (stripPrefixCI "her".data r).bind ws1 with
    | some r2 => r2
    | none => r

/-- `clears?\s+(?:his\s+|her\s+)?throat`. -/
def clearsThroat (l : List Char) : Option (List Char) := do
  let r ← stripPrefixCI "clear".data l
  let r ← ws1 (optS r)
  stripPrefixCI "throat".data (hisHer r)

/-- The verb alternation of the free-standing stage-direction regex. -/
def verbAlt (l : List Char) : Option (List Char) :=
  ((stripFirstCI verbWords l).map optS) <|> clearsThroat l

/-- The adverbs allowed to follow a verb. -/
def adverbs : List String :=
  ["softly", "loudly", "nervously", "expectantly", "deeply", "quietly",
   "slightly", "knowingly", "warmly", "broadly", "briefly", "dramatically",
   "heartily", "sheepishly", "awkwardly", "excitedly", "thoughtfully",
   "ruefully", "wryly", "dryly"]

/-- One repetition of `(?:\s+(?:softly|…|dryly))`. -/
def tryAdverb (l : List Char) : Option (List Char) :=
  (ws1 l).bind (stripFirstCI adverbs)

/-- The greedy Kleene star over adverb repetitions (each repetition consumes
at least two characters, so fuel `l.length` is adequate). -/
def adverbLoopF : Nat → List Char → List Char
  | 0, l => l
  | fuel + 1, l =>
    match tryAdverb l with
    | some r => adverbLoopF fuel r
    | none => l

def adverbLoop (l : List Char) : List Char := adverbLoopF l.length l

/-- One of `[.,;!?]?`. -/
def isPunct (c : Char) : Bool :=
  c == '.' || c == ',' || c == ';' || c == '!' || c == '?'

/--
Attempt the whole free-standing verb-phrase regex at the current position
(the `\b` condition is checked by the caller).  On success, return whether the
last consumed character is a word character — which decides `\b` at the next
scan position — together with the remainder.  All verb words, `throat`, and
all adverbs end in a letter, so the last character is a word character exactly
when neither the optional punctuation nor any trailing whitespace was
consumed.
-/
def tryVerbMatch (l : List Char) : Option (Bool × List Char) :=
  match verbAlt l with
  | none => none
  | some r1 =>
    let r2 := adverbLoop r1
    let pr :=
      match r2 with
      | c :: rest => if isPunct c then (true, rest) else (false, r2)
      | [] => (false, ([] : List Char))
    let r3 := pr.2
    let wsTaken :=
      match r3 with
      | c :: _ => isSpace c
      | [] => false
    some (!pr.1 && !wsTaken, r3.dropWhile isSpace)

/-- Scanner step for the free-standing verb-phrase replacement (replacement
text is a single space). -/
def verbStep (prevW : Bool) (l : List Char) : Option (List Char × Bool × List Char) :=
  if prevW then none
  else
    match tryVerbMatch l with
    | some (lw, rem) => some ([' '], lw, rem)
    | none => none

/-! #### Year verbalization (`formatYear`, lines 221–272). -/

def onesW : List String :=
  ["", "one", "two", "three", "four", "five", "six", "seven", "eight", "nine"]

def teensW : List String :=
  ["ten", "eleven", "twelve", "thirteen", "fourteen", "fifteen", "sixteen",
   "seventeen", "eighteen", "nineteen"]

def tensW : List String :=
  ["", "", "twenty", "thirty", "forty", "fifty", "sixty", "seventy", "eighty", "ninety"]

/-- `formatYear` from the source, verbatim: the 2000s, the 2010s–2020s (note
the buggy final branch that drops the decade word: `twenty ${ones[lastTwo %
10]}`), and the historical century/remainder form.  JavaScript's
`teens[firstTwo - 10] || ones[firstTwo]` is an index-out-of-range fallback,
rendered here by the `10 ≤ firstTwo` test. -/
def formatYear (year : Nat) : List Char :=
  if 2000 ≤ year ∧ year ≤ 2009 then
    jsTrim ("two thousand ".data ++ (onesW.getD (year - 2000) "").data)
  else if 2010 ≤ year ∧ year ≤ 2029 then
    let lastTwo := year % 100
    if lastTwo < 10 then jsTrim ("twenty ".data ++ (onesW.getD lastTwo "").data)
    else if lastTwo < 20 then "twenty ".data ++ (teensW.getD (lastTwo - 10) "").data
    else jsTrim ("twenty ".data ++ (onesW.getD (lastTwo % 10) "").data)
  else
    let firstTwo := year / 100
    let lastTwo := year % 100
    let firstPart :=
      if firstTwo < 20 then
        if 10 ≤ firstTwo then (teensW.getD (firstTwo - 10) "").data
        else (onesW.getD firstTwo "").data
      else
        (tensW.getD (firstTwo / 10) "").data ++
          (if firstTwo % 10 ≠ 0 then ' ' :: (onesW.getD (firstTwo % 10) "").data else [])
    let secondPart :=
      if lastTwo = 0 then "hundred".data
      else if lastTwo < 10 then "oh ".data ++ (onesW.getD lastTwo "").data
      else if lastTwo < 20 then (teensW.getD (lastTwo - 10) "").data
      else
        (tensW.getD (lastTwo / 10) "").data ++
          (if lastTwo % 10 ≠ 0 then '-' :: (onesW.getD (lastTwo % 10) "").data else [])
    jsTrim (firstPart ++ ' ' :: secondPart)

def digitVal (c : Char) : Nat := c.toNat - '0'.toNat

/-- Generic step for a `\btoken\b` replacement where the token is four
characters satisfying `pred`; `out` builds the replacement.  `\b` before the
token is the scanner state; `\b` after it is checked against the next
character (all tokens end in a digit, a word character, so the state after a
match is `true`). -/
def yearTokStep (pred : Char → Char → Char → Char → Bool)
    (out : Char → Char → Char → Char → List Char)
    (prevW : Bool) (l : List Char) : Option (List Char × Bool × List Char) :=
  if prevW then none
  else
    match l with
    | a :: b :: c :: d :: rest =>
      if pred a b c d &&
          (match rest with
           | [] => true
           | x :: _ => !isWordChar x) then
        some (out a b c d, true, rest)
      else none
    | _ => none

/-- `.replace(/\b1776\b/g, 'seventeen seventy-six')`. -/
def y1776Step : Bool → List Char → Option (List Char × Bool × List Char) :=
  yearTokStep (fun a b c d => a == '1' && b == '7' && c == '7' && d == '6')
    (fun _ _ _ _ => "seventeen seventy-six".data)

/-- `.replace(/\b1787\b/g, 'seventeen eighty-seven')`. -/
def y1787Step : Bool → List Char → Option (List Char × Bool × List Char) :=
  yearTokStep (fun a b c d => a == '1' && b == '7' && c == '8' && d == '7')
    (fun _ _ _ _ => "seventeen eighty-seven".data)

/-- `.replace(/\b1789\b/g, 'seventeen eighty-nine')`. -/
def y1789Step : Bool → List Char → Option (List Char × Bool × List Char) :=
  yearTokStep (fun a b c d => a == '1' && b == '7' && c == '8' && d == '9')
    (fun _ _ _ _ => "seventeen eighty-nine".data)

/-- `.replace(/\b(1[4-9]\d{2})\b/g, m => formatYear(m))`. -/
def yr14Step : Bool → List Char → Option (List Char × Bool × List Char) :=
  yearTokStep
    (fun a b c d => a == '1' && ('4' ≤ b && b ≤ '9') && c.isDigit && d.isDigit)
    (fun _ b c d => formatYear (1000 + 100 * digitVal b + 10 * digitVal c + digitVal d))

/-- `.replace(/\b(20[0-2]\d)\b/g, m => formatYear(m))`. -/
def yr20Step : Bool → List Char → Option (List Char × Bool × List Char) :=
  yearTokStep
    (fun a b c d => a == '2' && b == '0' && ('0' ≤ c && c ≤ '2') && d.isDigit)
    (fun _ _ c d => formatYear (2000 + 10 * digitVal c + digitVal d))

/-- `.replace(/\s+/g, ' ')`. -/
def wsStep (_ : Bool) (l : List Char) : Option (List Char × Bool × List Char) :=
  match l with
  | c :: rest => if isSpace c then some ([' '], false, rest.dropWhile isSpace) else none
  | [] => none

/-- `.replace(/X/g, rep)` for a single character `X`. -/
def charStep (t : Char) (rep : List Char) (_ : Bool) (l : List Char) :
    Option (List Char × Bool × List Char) :=
  match l with
  | c :: rest => if c == t then some (rep, false, rest) else none
  | [] => none

def ampStep := charStep '&' " and ".data
def dollarStep := charStep '$' " dollars ".data
def percentStep := charStep '%' " percent ".data

/-- The ASCII apostrophe. -/
def apos : Char := Char.ofNat 39

/-- `.replace(/[“”]/g, '"')`. -/
def quoteDStep (_ : Bool) (l : List Char) : Option (List Char × Bool × List Char) :=
  match l with
  | c :: rest => if c == '“' || c == '”' then some (['"'], false, rest) else none
  | [] => none

/-- `.replace(/[‘’]/g, "'")`. -/
def quoteSStep (_ : Bool) (l : List Char) : Option (List Char × Bool × List Char) :=
  match l with
  | c :: rest => if c == '‘' || c == '’' then some ([apos], false, rest) else none
  | [] => none

/-- `cleanText` (lines 191–215): the replacement chain in the source's exact
order, followed by `.trim()`. -/
def cleanText (l : List Char) : List Char :=
  jsTrim (runScan quoteSStep (runScan quoteDStep (runScan percentStep
    (runScan dollarStep (runScan ampStep (runScan wsStep (runScan yr20Step
      (runScan yr14Step (runScan y1789Step (runScan y1787Step (runScan y1776Step
        (runScan verbStep (runScan astStep (runScan parenStep
          (runScan bracketStep l)))))))))))))))

/-! ### The speaker-tag parser (`parseScript`, lines 111–186). -/

/-- One speaker-attributed dialogue segment.  The source stores the speaker as
the string `'host'` or `'expert'`. -/
structure Segment where
  speaker : String
  text : List Char
deriving DecidableEq, Repr

/-- The parsed script with its derived statistics. -/
structure Script where
  segments : List Segment
  totalWords : Nat
  estimatedMinutes : Nat
deriving DecidableEq, Repr

/-- JavaScript `String.prototype.split` on a single-character separator:
keeps empty pieces, `"".split(s) = [""]`. -/
def splitOnChar (sep : Char) : List Char → List (List Char)
  | [] => [[]]
  | c :: rest =>
    if c == sep then [] :: splitOnChar sep rest
    else
      match splitOnChar sep rest with
      | h :: t => (c :: h) :: t
      | [] => [[c]]

/-- `trimmed.match(/^\[HOST\]:?\s*(.*)/i) || trimmed.match(/^HOST:\s*(.*)/i)
|| trimmed.match(/^ANDREW:\s*(.*)/i)` — on success, the inline capture (the
rest of the line after the tag and any following whitespace). -/
def hostTag (l : List Char) : Option (List Char) :=
  match stripPrefixCI "[host]".data l with
  | some r =>
    some ((match r with
           | ':' :: r2 => r2
           | _ => r).dropWhile isSpace)
  | none =>
    match stripPrefixCI "host:".data l with
    | some r => some (r.dropWhile isSpace)
    | none =>
      match stripPrefixCI "andrew:".data l with
      | some r => some (r.dropWhile isSpace)
      | none => none

/-- The expert analogue: `[EXPERT]`, `EXPERT:`, `AVA:`. -/
def expertTag (l : List Char) : Option (List Char) :=
  match stripPrefixCI "[expert]".data l with
  | some r =>
    some ((match r with
           | ':' :: r2 => r2
           | _ => r).dropWhile isSpace)
  | none =>
    match stripPrefixCI "expert:".data l with
    | some r => some (r.dropWhile isSpace)
    | none =>
      match stripPrefixCI "ava:".data l with
      | some r => some (r.dropWhile isSpace)
      | none => none

/-- `text.replace(/^(Andrew|Host):\s*/i, '')`. -/
def stripNameHost (l : List Char) : List Char :=
  match stripPrefixCI "andrew:".data l with
  | some r => r.dropWhile isSpace
  | none =>
    match stripPrefixCI "host:".data l with
    | some r => r.dropWhile isSpace
    | none => l

/-- `text.replace(/^(Ava|Aria|Emily|Expert):\s*/i, '')`. -/
def stripNameExpert (l : List Char) : List Char :=
  match stripPrefixCI "ava:".data l with
  | some r => r.dropWhile isSpace
  | none =>
    match stripPrefixCI "aria:".data l with
    | some r => r.dropWhile isSpace
    | none =>
      match stripPrefixCI "emily:".data l with
      | some r => r.dropWhile isSpace
      | none =>
        match stripPrefixCI "expert:".data l with
        | some r => r.dropWhile isSpace
        | none => l

/-- `trimmed.match(/^\[.*\]$/)`: the whole line is a bracketed annotation. -/
def bracketOnly (l : List Char) : Bool :=
  match l with
  | '[' :: rest => rest.getLast? == some ']'
  | _ => false

/-- The parser loop's mutable state: `currentSpeaker`, the continuation-line
buffer `currentText`, and the segments pushed so far. -/
structure PState where
  speaker : Option String
  buf : List (List Char)
  segs : List Segment
deriving Repr

/-- Flush the pending segment (`segments.push({speaker, text:
currentText.join(' ').trim()})`, guarded by `currentSpeaker &&
currentText.length > 0`). -/
def flushSeg (st : PState) : List Segment :=
  match st.speaker with
  | some sp =>
    if st.buf == [] then st.segs
    else st.segs ++ [⟨sp, jsTrim (List.intercalate [' '] st.buf)⟩]
  | none => st.segs

/-- Process one line of the raw script (the body of the `for` loop). -/
def pStep (st : PState) (line : List Char) : PState :=
  let trimmed := jsTrim line
  if trimmed == [] then st
  else
    match hostTag trimmed with
    | some cap =>
      { speaker := some "host", buf := [jsTrim (stripNameHost cap)], segs := flushSeg st }
    | none =>
      match expertTag trimmed with
      | some cap =>
        { speaker := some "expert", buf := [jsTrim (stripNameExpert cap)], segs := flushSeg st }
      | none =>
        match st.speaker with
        | some _ => if bracketOnly trimmed then st else { st with buf := st.buf ++ [trimmed] }
        | none => st

/-- The segments accumulated by the loop plus the final flush, before the
minimum-length filter and per-segment cleaning. -/
def rawSegments (l : List Char) : List Segment :=
  flushSeg ((splitOnChar '\n' l).foldl pStep ⟨none, [], []⟩)

/-- `config.content.wordsPerMinute` (`src/lib/config.js`). -/
def wordsPerMinute : Nat := 150

/-- JavaScript `Math.round(n / d)` for natural `n`, positive `d`: round half
up.  (`n / d + 1/2 = (2n + d) / (2d)`; for the word counts arising here the
double-precision quotient is never close enough to a half-integer boundary —
other than exactly at it, where `k + 1/2` is representable — for the floating
computation to differ from the rational one.) -/
def jsRound (n d : Nat) : Nat := (2 * n + d) / (2 * d)

/-- `parseScript` (lines 111–186): fold the lines, flush, drop raw segments
of length ≤ 10, clean each surviving segment, and compute `totalWords` as the
sum of the `split(' ').length` of each cleaned text (note: split on the
literal space character, counting empty pieces) and `estimatedMinutes` as
`Math.round(totalWords / wordsPerMinute)`. -/
def parseScript (l : List Char) : Script :=
  let cleaned :=
    ((rawSegments l).filter (fun s => decide (10 < s.text.length))).map
      (fun s => { s with text := cleanText s.text })
  let totalWords := cleaned.foldl (fun sum s => sum + (splitOnChar ' ' s.text).length) 0
  { segments := cleaned
    totalWords := totalWords
    estimatedMinutes := jsRound totalWords wordsPerMinute }

/-! ### Content expansion (`expandContent`, `src/unnamed/part_000`,
lines 429–469). -/

/-- `countWords` from the fetch module:
`text.split(/\s+/).filter(w => w.length > 0).length`, i.e. the number of
maximal runs of non-whitespace characters. -/
def cwAux (inWord : Bool) : List Char → Nat
  | [] => 0
  | c :: rest =>
    if isSpace c then cwAux false rest
    else (if inWord then 0 else 1) + cwAux true rest

def countWords (l : List Char) : Nat := cwAux false l

/-- The article/document record.  A JavaScript object may lack the `expanded`
key entirely, which deep-equality distinguishes from `expanded: false`; hence
`Option Bool`. -/
structure Article where
  title : String
  content : String
  wordCount : Nat
  expanded : Option Bool
deriving DecidableEq, Repr

/-- The structured envelope from which `expandContent` extracts text:
`response.output || response.result || ''` (JavaScript `||`, so an empty
string is passed over like a missing field). -/
structure ExpandResponse where
  output : Option String
  result : Option String
deriving DecidableEq, Repr

/-- JavaScript `a || b` where `a : Option String` models a possibly-missing,
possibly-empty field. -/
def jsOrStr (a : Option String) (k : String) : String :=
  match a with
  | some s => if s == "" then k else s
  | none => k

/-- `expandContent(article, targetWords)`.  The whole generation call
(`execSync` + `JSON.parse` + field extraction) is abstracted as an
`Except`-valued argument: `.error` is any exception reaching the `catch`.
On success the new document has the supplement appended under the
"Additional Research" delimiter and the word count recomputed; on failure the
original article is returned with `expanded` set to `false` (`{ ...article,
expanded: false }`). -/
def expandContent (article : Article) (targetWords : Nat)
    (svc : Except String ExpandResponse) : Article :=
  let _ := targetWords
  match svc with
  | .ok resp =>
    let supplementary := jsOrStr resp.output (jsOrStr resp.result "")
    { article with
      content := article.content ++ "\n\n--- Additional Research ---\n\n" ++ supplementary
      wordCount := countWords article.content.data + countWords supplementary.data
      expanded := some true }
  | .error _ => { article with expanded := some false }

/-! ### Property definitions used by the claims. -/

/-- Does the text contain a match of the stage-direction pattern
`\[[^\]]+\]` — an opening bracket, at least one non-`]` character, and a
closing bracket?  (This is the code's own notion of a square-bracketed
substring; a bare `[]` has no content and is not a match.) -/
def hasBracketMatch : List Char → Bool
  | [] => false
  | c :: rest =>
    (c == '[' && !(rest.takeWhile (fun d => d != ']') == []) &&
      !(rest.dropWhile (fun d => d != ']') == [])) ||
    hasBracketMatch rest

/-- Does the text contain a match of the parenthetical stage-direction
pattern `\([^)]*(?:laugh|…|rais)[^)]*\)`? -/
def hasParenStemMatch : List Char → Bool
  | [] => false
  | c :: rest =>
    (c == '(' &&
      (match rest.dropWhile (fun d => d != ')') with
       | ')' :: _ => containsStem (rest.takeWhile (fun d => d != ')'))
       | _ => false)) ||
    hasParenStemMatch rest

/-- Structural invariant maintained by the normalizer: every `[` is either
immediately followed by `]` or has no `]` anywhere after it.  This implies
`hasBracketMatch = false`. -/
def bracketsOk : List Char → Bool
  | [] => true
  | c :: rest =>
    (if c = '[' then
      (match rest with
       | d :: _ => d == ']'
       | [] => true) || !(rest.contains ']')
     else true) &&
    bracketsOk rest

/-- No literal `&`, `$` or `%`. -/
def noSymbols (l : List Char) : Bool :=
  !(l.contains '&') && !(l.contains '$') && !(l.contains '%')

/-- Claim C1's per-segment predicate, exactly as stated: recognized speaker,
non-empty text, no bracketed substring, no parenthetical performance-verb
match, no raw symbol. -/
def c1SegOk (s : Segment) : Bool :=
  (s.speaker == "host" || s.speaker == "expert") &&
  !(s.text == []) && !(hasBracketMatch s.text) && !(hasParenStemMatch s.text) &&
  noSymbols s.text

/-- No two adjacent whitespace characters. -/
def noDoubleSpace : List Char → Bool
  | c :: d :: rest => !(isSpace c && isSpace d) && noDoubleSpace (d :: rest)
  | _ => true

/-- Texts on which the normalizer is the identity: only ASCII letters and
single interior spaces, and no performance-verb stem.  (Such texts contain
none of the normalizer's triggers.) -/
def tame (l : List Char) : Bool :=
  l.all (fun c => c.isAlpha || c == ' ') && noDoubleSpace l &&
  (match l.head? with
   | some c => !isSpace c
   | none => true) &&
  (match l.getLast? with
   | some c => !isSpace c
   | none => true) &&
  stems.all (fun st => !infixB st.data (toLowerL l))

/-- All characters are letters, spaces, or hyphens (the alphabet of
`formatYear`'s output). -/
def wordOk (l : List Char) : Bool := l.all (fun c => c.isAlpha || c == ' ' || c == '-')

/-- The parser state's speaker is absent or one of the two recognized
speakers. -/
def speakerOkS (s : Option String) : Prop :=
  s = none ∨ s = some "host" ∨ s = some "expert"

/-- Every accumulated segment carries a recognized speaker. -/
def segsOk (segs : List Segment) : Prop :=
  ∀ seg ∈ segs, seg.speaker = "host" ∨ seg.speaker = "expert"

/-! ### Step-function properties for the generic scanner lemmas. -/

/-- Every match consumes at least one character and leaves a suffix. -/
def StepConsumes (step : Bool → List Char → Option (List Char × Bool × List Char)) : Prop :=
  ∀ s l rep s' rem, step s l = some (rep, s', rem) → rem <:+ l ∧ rem.length < l.length

/-- The character `x` never appears in a replacement. -/
def StepRepAvoid (x : Char) (step : Bool → List Char → Option (List Char × Bool × List Char)) : Prop :=
  ∀ s l rep s' rem, step s l = some (rep, s', rem) → x ∉ rep

/-- No match starts at the character `x`. -/
def StepNoFire (x : Char) (step : Bool → List Char → Option (List Char × Bool × List Char)) : Prop :=
  ∀ s r, step s (x :: r) = none

/-- A match always starts at the character `x` (regardless of state). -/
def StepFires (x : Char) (step : Bool → List Char → Option (List Char × Bool × List Char)) : Prop :=
  ∀ s r, step s (x :: r) ≠ none

/-- Every match starts at a character satisfying `T`. -/
def StepTrigger (T : Char → Prop) (step : Bool → List Char → Option (List Char × Bool × List Char)) : Prop :=
  ∀ s c r, step s (c :: r) ≠ none → T c

/-! ## Basic lemmas -/

theorem scanS_nil (step : Bool → List Char → Option (List Char × Bool × List Char))
    (fuel : Nat) (s : Bool) : scanS step fuel s [] = [] := by
  cases fuel <;> simp [scanS]

theorem stripPrefixCI_spec :
    ∀ (p l r : List Char), stripPrefixCI p l = some r →
      r <:+ l ∧ r.length + p.length = l.length := by
  intro p
  induction p with
  | nil =>
    intro l r h
    simp only [stripPrefixCI, Option.some.injEq] at h
    subst h
    exact ⟨List.suffix_refl _, by simp⟩
  | cons p ps ih =>
    intro l r h
    cases l with
    | nil => simp [stripPrefixCI] at h
    | cons c cs =>
      simp only [stripPrefixCI] at h
      split at h
      · obtain ⟨h1, h2⟩ := ih cs r h
        refine ⟨h1.trans (List.suffix_cons c cs), ?_⟩
        simp only [List.length_cons]
        omega
      · exact absurd h (by simp)

theorem stripPrefixCI_length_lt {p l r : List Char} (hp : p ≠ [])
    (h : stripPrefixCI p l = some r) : r.length < l.length := by
  obtain ⟨-, h2⟩ := stripPrefixCI_spec p l r h
  have : 0 < p.length := List.length_pos.mpr hp
  omega

theorem stripFirstCI_exists :
    ∀ (ws : List String) (l r : List Char), stripFirstCI ws l = some r →
      ∃ w ∈ ws, stripPrefixCI w.data l = some r := by
  intro ws
  induction ws with
  | nil => intro l r h; simp [stripFirstCI] at h
  | cons w ws ih =>
    intro l r h
    simp only [stripFirstCI] at h
    rcases h1 : stripPrefixCI w.data l with _ | r'
    · rw [h1] at h
      simp only [Option.none_orElse] at h
      obtain ⟨w', hw', h2⟩ := ih l r h
      exact ⟨w', List.mem_cons_of_mem _ hw', h2⟩
    · rw [h1] at h
      simp only [Option.some_orElse, Option.some.injEq] at h
      subst h
      exact ⟨w, List.mem_cons_self _ _, h1⟩

theorem ws1_spec {l r : List Char} (h : ws1 l = some r) :
    r <:+ l ∧ r.length < l.length := by
  cases l with
  | nil => simp [ws1] at h
  | cons c cs =>
    simp only [ws1] at h
    split at h
    · simp only [Option.some.injEq] at h
      subst h
      constructor
      · exact (List.dropWhile_suffix isSpace).trans (List.suffix_cons c cs)
      · have := (List.dropWhile_suffix (l := cs) isSpace).length_le
        simp only [List.length_cons]
        omega
    · exact absurd h (by simp)

theorem optS_suffix (l : List Char) : optS l <:+ l ∧ (optS l).length ≤ l.length := by
  cases l with
  | nil => exact ⟨List.suffix_refl _, le_refl _⟩
  | cons c cs =>
    simp only [optS]
    split
    · exact ⟨List.suffix_cons c cs, by simp⟩
    · exact ⟨List.suffix_refl _, le_refl _⟩

theorem hisHer_spec (r : List Char) : hisHer r <:+ r ∧ (hisHer r).length ≤ r.length := by
  unfold hisHer
  rcases hh : (stripPrefixCI "his".data r).bind ws1 with _ | m
  · dsimp only
    rcases hh2 : (stripPrefixCI "her".data r).bind ws1 with _ | m2
    · dsimp only
      exact ⟨List.suffix_refl _, le_refl _⟩
    · dsimp only
      simp only [Option.bind_eq_some] at hh2
      obtain ⟨mm, hmm, hmm2⟩ := hh2
      have a1 := stripPrefixCI_spec _ _ _ hmm
      have a2 := ws1_spec hmm2
      exact ⟨a2.1.trans a1.1, by have := a1.1.length_le; have := a2.1.length_le; omega⟩
  · dsimp only
    simp only [Option.bind_eq_some] at hh
    obtain ⟨mm, hmm, hmm2⟩ := hh
    have a1 := stripPrefixCI_spec _ _ _ hmm
    have a2 := ws1_spec hmm2
    exact ⟨a2.1.trans a1.1, by have := a1.1.length_le; have := a2.1.length_le; omega⟩

theorem clearsThroat_spec {l r : List Char} (h : clearsThroat l = some r) :
    r <:+ l ∧ r.length < l.length := by
  simp only [clearsThroat, bind, Option.bind_eq_some] at h
  obtain ⟨r1, h1, h⟩ := h
  obtain ⟨r2, h2, h3⟩ := h
  have s1 := stripPrefixCI_spec _ _ _ h1
  have s1' : r1.length < l.length := stripPrefixCI_length_lt (by simp) h1
  have so := optS_suffix r1
  have s2 := ws1_spec h2
  have s3 := hisHer_spec r2
  have s4 := stripPrefixCI_spec _ _ _ h3
  constructor
  · exact ((s4.1.trans s3.1).trans s2.1).trans (so.1.trans s1.1)
  · have := s4.1.length_le
    have := s2.2
    have := so.2
    have := s3.2
    omega

theorem verbAlt_spec {l r : List Char} (h : verbAlt l = some r) :
    r <:+ l ∧ r.length < l.length := by
  simp only [verbAlt] at h
  rcases h1 : stripFirstCI verbWords l with _ | r'
  · rw [h1] at h
    simp only [Option.map_none', Option.none_orElse] at h
    exact clearsThroat_spec h
  · rw [h1] at h
    simp only [Option.map_some', Option.some_orElse, Option.some.injEq] at h
    subst h
    obtain ⟨w, hw, h2⟩ := stripFirstCI_exists _ _ _ h1
    have hne : w.data ≠ [] := by
      fin_cases hw <;> simp
    have := stripPrefixCI_length_lt hne h2
    have s1 := stripPrefixCI_spec _ _ _ h2
    have so := optS_suffix r'
    exact ⟨so.1.trans s1.1, by omega⟩

theorem tryAdverb_spec {l r : List Char} (h : tryAdverb l = some r) :
    r <:+ l ∧ r.length < l.length := by
  simp only [tryAdverb, Option.bind_eq_some] at h
  obtain ⟨m, hm, hm2⟩ := h
  have a1 := ws1_spec hm
  obtain ⟨w, hw, h2⟩ := stripFirstCI_exists _ _ _ hm2
  have s2 := stripPrefixCI_spec _ _ _ h2
  exact ⟨s2.1.trans a1.1, by have := s2.1.length_le; omega⟩

theorem adverbLoopF_suffix :
    ∀ (fuel : Nat) (l : List Char), adverbLoopF fuel l <:+ l := by
  intro fuel
  induction fuel with
  | zero => intro l; exact List.suffix_refl _
  | succ n ih =>
    intro l
    simp only [adverbLoopF]
    rcases h : tryAdverb l with _ | r
    · exact List.suffix_refl _
    · exact (ih r).trans (tryAdverb_spec h).1

theorem tryVerbMatch_spec {l : List Char} {b : Bool} {rem : List Char}
    (h : tryVerbMatch l = some (b, rem)) : rem <:+ l ∧ rem.length < l.length := by
  simp only [tryVerbMatch] at h
  rcases hv : verbAlt l with _ | r1
  · rw [hv] at h; exact absurd h (by simp)
  · rw [hv] at h
    simp only [Option.some.injEq, Prod.mk.injEq] at h
    have hva := verbAlt_spec hv
    have hal : adverbLoop r1 <:+ r1 := adverbLoopF_suffix _ _
    have hr3 :
        (match adverbLoop r1 with
          | c :: rest => if isPunct c then (true, rest) else (false, adverbLoop r1)
          | [] => (false, ([] : List Char))).2 <:+ adverbLoop r1 := by
      rcases adverbLoop r1 with _ | ⟨c, rest⟩
      · exact List.suffix_refl _
      · dsimp only
        split
        · exact List.suffix_cons c rest
        · exact List.suffix_refl _
    have hrem : rem <:+ l := by
      rw [← h.2]
      exact (((List.dropWhile_suffix isSpace).trans hr3).trans hal).trans
        (hva.1.trans (List.suffix_refl l))
    refine ⟨hrem, ?_⟩
    have h1 := (((List.dropWhile_suffix isSpace).trans hr3).trans hal).length_le
    have := hva.2
    rw [← h.2]
    omega

/-! ## Generic scanner lemmas -/

/-- A character absent from the input and from every replacement is absent
from the scanner's output. -/
theorem scanS_absent {x : Char}
    {step : Bool → List Char → Option (List Char × Bool × List Char)}
    (hc : StepConsumes step) (hr : StepRepAvoid x step) :
    ∀ (fuel : Nat) (s : Bool) (l : List Char), x ∉ l → x ∉ scanS step fuel s l := by
  intro fuel
  induction fuel with
  | zero => intro s l hx; simpa [scanS] using hx
  | succ n ih =>
    intro s l hx
    cases l with
    | nil => simp [scanS]
    | cons c rest =>
      rcases hstep : step s (c :: rest) with _ | ⟨rep, s', rem⟩
      · simp only [scanS, hstep, List.mem_cons, not_or]
        exact ⟨fun h => hx (by simp [h]), ih _ rest (fun hm => hx (List.mem_cons_of_mem _ hm))⟩
      · have h2 := hc s (c :: rest) rep s' rem hstep
        have hrep := hr s (c :: rest) rep s' rem hstep
        have hrem : x ∉ rem := fun hm => hx (h2.1.subset hm)
        simp only [scanS, hstep, List.mem_append, not_or]
        exact ⟨hrep, ih s' rem hrem⟩

/-- If a match always starts at `x` and no replacement contains `x`, a full
scan (fuel at least the input length) eliminates `x` entirely. -/
theorem scanS_elim {x : Char}
    {step : Bool → List Char → Option (List Char × Bool × List Char)}
    (hc : StepConsumes step) (hr : StepRepAvoid x step) (hf : StepFires x step) :
    ∀ (fuel : Nat) (s : Bool) (l : List Char), l.length ≤ fuel →
      x ∉ scanS step fuel s l := by
  intro fuel
  induction fuel with
  | zero =>
    intro s l hl
    have : l = [] := List.eq_nil_of_length_eq_zero (Nat.le_zero.mp hl)
    subst this
    simp [scanS]
  | succ n ih =>
    intro s l hl
    cases l with
    | nil => simp [scanS]
    | cons c rest =>
      rcases hstep : step s (c :: rest) with _ | ⟨rep, s', rem⟩
      · have hcx : c ≠ x := by
          intro h
          subst h
          exact hf s rest hstep
        simp only [scanS, hstep, List.mem_cons, not_or]
        refine ⟨fun h => hcx h.symm, ih _ rest ?_⟩
        simp only [List.length_cons] at hl
        omega
      · have h2 := hc s (c :: rest) rep s' rem hstep
        have hrep := hr s (c :: rest) rep s' rem hstep
        simp only [scanS, hstep, List.mem_append, not_or]
        refine ⟨hrep, ih s' rem ?_⟩
        have := h2.2
        simp only [List.length_cons] at hl this ⊢
        omega

/-- A scan whose step can only fire on characters satisfying `T` is the
identity on strings containing no such character. -/
theorem scanS_noop {T : Char → Prop}
    {step : Bool → List Char → Option (List Char × Bool × List Char)}
    (ht : StepTrigger T step) :
    ∀ (fuel : Nat) (s : Bool) (l : List Char), (∀ c ∈ l, ¬ T c) →
      scanS step fuel s l = l := by
  intro fuel
  induction fuel with
  | zero => intro s l _; simp [scanS]
  | succ n ih =>
    intro s l h
    cases l with
    | nil => simp [scanS]
    | cons c rest =>
      rcases hstep : step s (c :: rest) with _ | v
      · simp only [scanS, hstep]
        rw [ih _ rest (fun d hd => h d (List.mem_cons_of_mem _ hd))]
      · exact absurd (ht s c rest (by simp [hstep])) (h c (List.mem_cons_self _ _))

/-! ## The bracket invariant -/

theorem bracketsOk_tail {c : Char} {rest : List Char}
    (h : bracketsOk (c :: rest) = true) : bracketsOk rest = true := by
  simp only [bracketsOk, Bool.and_eq_true] at h
  exact h.2

theorem bracketsOk_append_right :
    ∀ (p l : List Char), bracketsOk (p ++ l) = true → bracketsOk l = true := by
  intro p
  induction p with
  | nil => intro l h; exact h
  | cons c cs ih => intro l h; exact ih l (bracketsOk_tail h)

theorem bracketsOk_suffix {l m : List Char} (hs : l <:+ m)
    (h : bracketsOk m = true) : bracketsOk l = true := by
  obtain ⟨t, rfl⟩ := hs
  exact bracketsOk_append_right t l h

/-- Prepending bracket-free text preserves the invariant. -/
theorem bracketsOk_prepend :
    ∀ (p : List Char), (∀ c ∈ p, c ≠ '[') → ∀ {w : List Char},
      bracketsOk w = true → bracketsOk (p ++ w) = true := by
  intro p
  induction p with
  | nil => intro _ w h; exact h
  | cons c cs ih =>
    intro hp w h
    simp only [List.cons_append, bracketsOk, Bool.and_eq_true]
    refine ⟨?_, ih (fun d hd => hp d (List.mem_cons_of_mem _ hd)) h⟩
    rw [if_neg (hp c (List.mem_cons_self _ _))]

/-- A string with no closing bracket at all satisfies the invariant. -/
theorem bracketsOk_of_no_close :
    ∀ {l : List Char}, ']' ∉ l → bracketsOk l = true := by
  intro l
  induction l with
  | nil => intro _; rfl
  | cons c cs ih =>
    intro h
    simp only [bracketsOk, Bool.and_eq_true]
    refine ⟨?_, ih (fun hm => h (List.mem_cons_of_mem _ hm))⟩
    split
    · have h2 : ']' ∉ cs := fun hm => h (List.mem_cons_of_mem _ hm)
      have h3 : cs.contains ']' = false := by simpa using h2
      simp only [Bool.or_eq_true, h3, Bool.not_false]
      right
      trivial
    · rfl

theorem bracketsOk_cons_open {w : List Char} (h : ']' ∉ w) (hw : bracketsOk w = true) :
    bracketsOk ('[' :: w) = true := by
  have hcont : w.contains ']' = false := by simpa using h
  simp [bracketsOk, hcont, hw]
  exact Or.inr h

theorem scanS_cons_nofire {x : Char}
    {step : Bool → List Char → Option (List Char × Bool × List Char)}
    (hnf : StepNoFire x step) (n : Nat) (s : Bool) (rest : List Char) :
    scanS step (n + 1) s (x :: rest) = x :: scanS step n (isWordChar x) rest := by
  simp [scanS, hnf s rest]

/--
Preservation of the bracket invariant by any scanner pass whose replacements
contain no bracket character, whose matches never start at `]`, and whose
matches consume a prefix: the matched region never separates a `[` from an
adjacent `]`, and no `]` is ever created after a `[` that had none.
-/
theorem scanS_bracketsOk
    {step : Bool → List Char → Option (List Char × Bool × List Char)}
    (hc : StepConsumes step) (hro : StepRepAvoid '[' step) (hrc : StepRepAvoid ']' step)
    (hnc : StepNoFire ']' step) :
    ∀ (fuel : Nat) (s : Bool) (l : List Char), bracketsOk l = true →
      bracketsOk (scanS step fuel s l) = true := by
  intro fuel
  induction fuel using Nat.strong_induction_on with
  | _ fuel ih =>
    intro s l hl
    rcases fuel with _ | n
    · simpa [scanS] using hl
    rcases l with _ | ⟨c, rest⟩
    · simp [scanS, bracketsOk]
    rcases hstep : step s (c :: rest) with _ | ⟨rep, s', rem⟩
    · -- no match here: emit `c`
      by_cases hcb : c = '['
      · subst hcb
        have hrest : bracketsOk rest = true := bracketsOk_tail hl
        have hcond := hl
        simp only [bracketsOk, if_pos rfl, Bool.and_eq_true] at hcond
        replace hcond := hcond.1
        rw [show scanS step (n + 1) s ('[' :: rest) =
              '[' :: scanS step n (isWordChar '[') rest from by simp [scanS, hstep]]
        rcases rest with _ | ⟨d, rest2⟩
        · simp [scanS_nil, bracketsOk]
        rcases Bool.or_eq_true_iff.mp hcond with h1 | h1
        · -- the `[` is immediately followed by `]`
          have hd : d = ']' := by simpa using h1
          subst hd
          rcases n with _ | m
          · simpa [scanS] using hl
          · rw [scanS_cons_nofire hnc m _ rest2]
            have hrest2 : bracketsOk rest2 = true := bracketsOk_tail hrest
            have hw := ih m (by omega) (isWordChar ']') rest2 hrest2
            simp [bracketsOk, hw]
        · -- no `]` anywhere after the `[`
          have hnocl : ']' ∉ (d :: rest2) := by simpa using h1
          have habs : ']' ∉ scanS step n (isWordChar '[') (d :: rest2) :=
            scanS_absent hc hrc n _ _ hnocl
          have hw := ih n (by omega) (isWordChar '[') (d :: rest2) hrest
          exact bracketsOk_cons_open habs hw
      · rw [show scanS step (n + 1) s (c :: rest) =
              c :: scanS step n (isWordChar c) rest from by simp [scanS, hstep]]
        have hrest : bracketsOk rest = true := bracketsOk_tail hl
        have hw := ih n (by omega) (isWordChar c) rest hrest
        simp [bracketsOk, if_neg hcb, hw]
    · -- a match: replacement is bracket-free, remainder is a suffix
      have h2 := hc s (c :: rest) rep s' rem hstep
      have hrem : bracketsOk rem = true := bracketsOk_suffix h2.1 hl
      have hw := ih n (by omega) s' rem hrem
      rw [show scanS step (n + 1) s (c :: rest) =
            rep ++ scanS step n s' rem from by simp [scanS, hstep]]
      exact bracketsOk_prepend rep (fun d hd heq => by
        subst heq
        exact hro s (c :: rest) rep s' rem hstep hd) hw

/-- The invariant implies the code's bracketed-substring pattern is absent. -/
theorem hasBracketMatch_false_of_bracketsOk :
    ∀ {l : List Char}, bracketsOk l = true → hasBracketMatch l = false := by
  intro l
  induction l with
  | nil => intro _; rfl
  | cons c rest ih =>
    intro h
    have ht := bracketsOk_tail h
    simp only [hasBracketMatch]
    rw [ih ht, Bool.or_false]
    by_cases hc : c = '['
    · subst hc
      simp only [bracketsOk, if_pos rfl, Bool.and_eq_true] at h
      rcases Bool.or_eq_true_iff.mp h.1 with h1 | h1
      · rcases rest with _ | ⟨d, rest2⟩
        · simp
        · have hd : d = ']' := by simpa using h1
          subst hd
          simp [List.takeWhile]
      · have hmem : ']' ∉ rest := by simpa using h1
        have hd : rest.dropWhile (fun d => d != ']') = [] := by
          apply List.dropWhile_eq_nil_iff.mpr
          intro x hx
          simp only [bne_iff_ne, ne_eq]
          intro hxx
          exact hmem (hxx ▸ hx)
        simp [hd]
    · simp [hc]

/-! ## Step-function instances -/

theorem dropWhile_head_false {p : Char → Bool} :
    ∀ {l : List Char} {x : Char} {xs : List Char}, l.dropWhile p = x :: xs → p x = false := by
  intro l
  induction l with
  | nil => intro x xs h; simp [List.dropWhile] at h
  | cons c cs ih =>
    intro x xs h
    rw [List.dropWhile_cons] at h
    split at h
    · exact ih h
    · rename_i hpc
      cases h
      exact Bool.eq_false_iff.mpr hpc

theorem bracketStep_consumes : StepConsumes bracketStep := by
  intro s l rep s' rem h
  unfold bracketStep at h
  split at h
  next rest =>
    split at h
    · exact absurd h (by simp)
    · split at h
      next rem2 hdrop =>
        simp only [Option.some.injEq, Prod.mk.injEq] at h
        obtain ⟨h1, h2, h3⟩ := h
        subst h3
        have hsuf : (']' :: rem2) <:+ rest := by
          rw [← hdrop]; exact List.dropWhile_suffix _
        have h4 : rem2 <:+ rest := (List.suffix_cons ']' rem2).trans hsuf
        refine ⟨h4.trans (List.suffix_cons _ _), ?_⟩
        have := h4.length_le
        simp only [List.length_cons]
        omega
      next => exact absurd h (by simp)
  next => exact absurd h (by simp)

theorem bracketStep_repAvoid (x : Char) : StepRepAvoid x bracketStep := by
  intro s l rep s' rem h
  unfold bracketStep at h
  split at h
  next rest =>
    split at h
    · exact absurd h (by simp)
    · split at h
      next rem2 hdrop =>
        simp only [Option.some.injEq, Prod.mk.injEq] at h
        obtain ⟨h1, -, -⟩ := h
        subst h1
        simp
      next => exact absurd h (by simp)
  next => exact absurd h (by simp)

theorem bracketStep_nofire {x : Char} (hx : x ≠ '[') : StepNoFire x bracketStep := by
  intro s r
  unfold bracketStep
  split
  next rest heq =>
    injection heq with h1 h2
    exact absurd h1 hx
  next => rfl

theorem parenStep_consumes : StepConsumes parenStep := by
  intro s l rep s' rem h
  unfold parenStep at h
  split at h
  next rest =>
    split at h
    next rem2 hdrop =>
      split at h
      · simp only [Option.some.injEq, Prod.mk.injEq] at h
        obtain ⟨h1, h2, h3⟩ := h
        subst h3
        have hsuf : (')' :: rem2) <:+ rest := by
          rw [← hdrop]; exact List.dropWhile_suffix _
        have h4 : rem2 <:+ rest := (List.suffix_cons ')' rem2).trans hsuf
        refine ⟨h4.trans (List.suffix_cons _ _), ?_⟩
        have := h4.length_le
        simp only [List.length_cons]
        omega
      · exact absurd h (by simp)
    next => exact absurd h (by simp)
  next => exact absurd h (by simp)

theorem parenStep_repAvoid (x : Char) : StepRepAvoid x parenStep := by
  intro s l rep s' rem h
  unfold parenStep at h
  split at h
  next rest =>
    split at h
    next rem2 hdrop =>
      split at h
      · simp only [Option.some.injEq, Prod.mk.injEq] at h
        obtain ⟨h1, -, -⟩ := h
        subst h1
        simp
      · exact absurd h (by simp)
    next => exact absurd h (by simp)
  next => exact absurd h (by simp)

theorem parenStep_nofire {x : Char} (hx : x ≠ '(') : StepNoFire x parenStep := by
  intro s r
  unfold parenStep
  split
  next rest heq =>
    injection heq with h1 h2
    exact absurd h1 hx
  next => rfl

theorem astStep_consumes : StepConsumes astStep := by
  intro s l rep s' rem h
  unfold astStep at h
  split at h
  next rest =>
    split at h
    · exact absurd h (by simp)
    · split at h
      next rem2 hdrop =>
        simp only [Option.some.injEq, Prod.mk.injEq] at h
        obtain ⟨h1, h2, h3⟩ := h
        subst h3
        have hsuf : ('*' :: rem2) <:+ rest := by
          rw [← hdrop]; exact List.dropWhile_suffix _
        have h4 : rem2 <:+ rest := (List.suffix_cons '*' rem2).trans hsuf
        refine ⟨h4.trans (List.suffix_cons _ _), ?_⟩
        have := h4.length_le
        simp only [List.length_cons]
        omega
      next => exact absurd h (by simp)
  next => exact absurd h (by simp)

theorem astStep_repAvoid (x : Char) : StepRepAvoid x astStep := by
  intro s l rep s' rem h
  unfold astStep at h
  split at h
  next rest =>
    split at h
    · exact absurd h (by simp)
    · split at h
      next rem2 hdrop =>
        simp only [Option.some.injEq, Prod.mk.injEq] at h
        obtain ⟨h1, -, -⟩ := h
        subst h1
        simp
      next => exact absurd h (by simp)
  next => exact absurd h (by simp)

theorem astStep_nofire {x : Char} (hx : x ≠ '*') : StepNoFire x astStep := by
  intro s r
  unfold astStep
  split
  next rest heq =>
    injection heq with h1 h2
    exact absurd h1 hx
  next => rfl

theorem charStep_consumes (t : Char) (rep : List Char) : StepConsumes (charStep t rep) := by
  intro s l rep' s' rem h
  unfold charStep at h
  split at h
  next c rest =>
    split at h
    · simp only [Option.some.injEq, Prod.mk.injEq] at h
      obtain ⟨-, -, h3⟩ := h
      subst h3
      exact ⟨List.suffix_cons _ _, by simp⟩
    · exact absurd h (by simp)
  next => exact absurd h (by simp)

theorem charStep_repAvoid {x t : Char} {rep : List Char} (hx : x ∉ rep) :
    StepRepAvoid x (charStep t rep) := by
  intro s l rep' s' rem h
  unfold charStep at h
  split at h
  next c rest =>
    split at h
    · simp only [Option.some.injEq, Prod.mk.injEq] at h
      obtain ⟨h1, -, -⟩ := h
      subst h1
      exact hx
    · exact absurd h (by simp)
  next => exact absurd h (by simp)

theorem charStep_nofire {x t : Char} (rep : List Char) (hx : x ≠ t) :
    StepNoFire x (charStep t rep) := by
  intro s r
  dsimp only [charStep]
  rw [if_neg (by simpa using hx)]

theorem charStep_fires (t : Char) (rep : List Char) : StepFires t (charStep t rep) := by
  intro s r
  dsimp only [charStep]
  rw [if_pos (by simp)]
  simp

theorem wsStep_consumes : StepConsumes wsStep := by
  intro s l rep s' rem h
  unfold wsStep at h
  split at h
  next c rest =>
    split at h
    · simp only [Option.some.injEq, Prod.mk.injEq] at h
      obtain ⟨-, -, h3⟩ := h
      subst h3
      refine ⟨(List.dropWhile_suffix isSpace).trans (List.suffix_cons c rest), ?_⟩
      have := (List.dropWhile_suffix (l := rest) isSpace).length_le
      simp only [List.length_cons]
      omega
    · exact absurd h (by simp)
  next => exact absurd h (by simp)

theorem wsStep_repAvoid {x : Char} (hx : x ≠ ' ') : StepRepAvoid x wsStep := by
  intro s l rep s' rem h
  unfold wsStep at h
  split at h
  next c rest =>
    split at h
    · simp only [Option.some.injEq, Prod.mk.injEq] at h
      obtain ⟨h1, -, -⟩ := h
      subst h1
      simpa using hx
    · exact absurd h (by simp)
  next => exact absurd h (by simp)

theorem wsStep_nofire {x : Char} (hx : isSpace x = false) : StepNoFire x wsStep := by
  intro s r
  dsimp only [wsStep]
  rw [if_neg (by simp [hx])]

theorem quoteDStep_consumes : StepConsumes quoteDStep := by
  intro s l rep s' rem h
  unfold quoteDStep at h
  split at h
  next c rest =>
    split at h
    · simp only [Option.some.injEq, Prod.mk.injEq] at h
      obtain ⟨-, -, h3⟩ := h
      subst h3
      exact ⟨List.suffix_cons _ _, by simp⟩
    · exact absurd h (by simp)
  next => exact absurd h (by simp)

theorem quoteDStep_repAvoid {x : Char} (hx : x ≠ '"') : StepRepAvoid x quoteDStep := by
  intro s l rep s' rem h
  unfold quoteDStep at h
  split at h
  next c rest =>
    split at h
    · simp only [Option.some.injEq, Prod.mk.injEq] at h
      obtain ⟨h1, -, -⟩ := h
      subst h1
      simpa using hx
    · exact absurd h (by simp)
  next => exact absurd h (by simp)

theorem quoteDStep_nofire {x : Char} (hx : ¬(x = '“' ∨ x = '”')) : StepNoFire x quoteDStep := by
  intro s r
  dsimp only [quoteDStep]
  rw [if_neg (by simpa using hx)]

theorem quoteSStep_consumes : StepConsumes quoteSStep := by
  intro s l rep s' rem h
  unfold quoteSStep at h
  split at h
  next c rest =>
    split at h
    · simp only [Option.some.injEq, Prod.mk.injEq] at h
      obtain ⟨-, -, h3⟩ := h
      subst h3
      exact ⟨List.suffix_cons _ _, by simp⟩
    · exact absurd h (by simp)
  next => exact absurd h (by simp)

theorem quoteSStep_repAvoid {x : Char} (hx : x ≠ apos) : StepRepAvoid x quoteSStep := by
  intro s l rep s' rem h
  unfold quoteSStep at h
  split at h
  next c rest =>
    split at h
    · simp only [Option.some.injEq, Prod.mk.injEq] at h
      obtain ⟨h1, -, -⟩ := h
      subst h1
      simpa using hx
    · exact absurd h (by simp)
  next => exact absurd h (by simp)

theorem quoteSStep_nofire {x : Char} (hx : ¬(x = '‘' ∨ x = '’')) : StepNoFire x quoteSStep := by
  intro s r
  dsimp only [quoteSStep]
  rw [if_neg (by simpa using hx)]

theorem yearTokStep_consumes (pred : Char → Char → Char → Char → Bool)
    (out : Char → Char → Char → Char → List Char) :
    StepConsumes (yearTokStep pred out) := by
  intro s l rep s' rem h
  unfold yearTokStep at h
  split at h
  · exact absurd h (by simp)
  · split at h
    next a b c d rest =>
      split at h
      · simp only [Option.some.injEq, Prod.mk.injEq] at h
        obtain ⟨-, -, h3⟩ := h
        subst h3
        exact ⟨⟨[a, b, c, d], rfl⟩, by simp only [List.length_cons]; omega⟩
      · exact absurd h (by simp)
    next => exact absurd h (by simp)

theorem yearTokStep_repAvoid {x : Char} {pred : Char → Char → Char → Char → Bool}
    {out : Char → Char → Char → Char → List Char}
    (hout : ∀ a b c d, x ∉ out a b c d) :
    StepRepAvoid x (yearTokStep pred out) := by
  intro s l rep s' rem h
  unfold yearTokStep at h
  split at h
  · exact absurd h (by simp)
  · split at h
    next a b c d rest =>
      split at h
      · simp only [Option.some.injEq, Prod.mk.injEq] at h
        obtain ⟨h1, -, -⟩ := h
        subst h1
        exact hout a b c d
      · exact absurd h (by simp)
    next => exact absurd h (by simp)

theorem yearTokStep_nofire {x : Char} {pred : Char → Char → Char → Char → Bool}
    {out : Char → Char → Char → Char → List Char}
    (hp : ∀ b c d, pred x b c d = false) :
    StepNoFire x (yearTokStep pred out) := by
  intro s r
  unfold yearTokStep
  split
  · rfl
  · split
    next a b c d rest heq =>
      injection heq with h1 h2
      subst h1
      rw [if_neg (by simp [hp])]
    next => rfl

theorem yearTokStep_trigger {pred : Char → Char → Char → Char → Bool}
    {out : Char → Char → Char → Char → List Char} {T : Char → Prop}
    (hp : ∀ a b c d, pred a b c d = true → T a) :
    StepTrigger T (yearTokStep pred out) := by
  intro s c r h
  unfold yearTokStep at h
  split at h
  · exact absurd rfl h
  · split at h
    next a b c' d rest heq =>
      injection heq with h1 h2
      subst h1
      split at h
      next hcond =>
        exact hp _ _ _ _ (Bool.and_eq_true_iff.mp hcond).1
      next => exact absurd rfl h
    next => exact absurd rfl h

theorem verbStep_consumes : StepConsumes verbStep := by
  intro s l rep s' rem h
  unfold verbStep at h
  split at h
  · exact absurd h (by simp)
  · split at h
    next lw rem2 hm =>
      simp only [Option.some.injEq, Prod.mk.injEq] at h
      obtain ⟨-, -, h3⟩ := h
      subst h3
      exact tryVerbMatch_spec hm
    next => exact absurd h (by simp)

theorem verbStep_repAvoid {x : Char} (hx : x ≠ ' ') : StepRepAvoid x verbStep := by
  intro s l rep s' rem h
  unfold verbStep at h
  split at h
  · exact absurd h (by simp)
  · split at h
    next lw rem2 hm =>
      simp only [Option.some.injEq, Prod.mk.injEq] at h
      obtain ⟨h1, -, -⟩ := h
      subst h1
      simpa using hx
    next => exact absurd h (by simp)

theorem verbStep_nofire_of_verbAlt_none {x : Char}
    (hva : ∀ r : List Char, verbAlt (x :: r) = none) : StepNoFire x verbStep := by
  intro s r
  unfold verbStep
  split
  · rfl
  · have hm : tryVerbMatch (x :: r) = none := by
      unfold tryVerbMatch
      rw [hva r]
    rw [hm]

theorem verbAlt_close_none (r : List Char) : verbAlt (']' :: r) = none := rfl

theorem verbAlt_open_none (r : List Char) : verbAlt ('[' :: r) = none := rfl

/-! ### `formatYear` produces only letters, spaces and hyphens -/

theorem wordOk_append {a b : List Char} (ha : wordOk a = true) (hb : wordOk b = true) :
    wordOk (a ++ b) = true := by
  simp only [wordOk, List.all_append, Bool.and_eq_true]
  exact ⟨ha, hb⟩

theorem wordOk_cons {c : Char} {l : List Char} (hc : (c.isAlpha || c == ' ' || c == '-') = true)
    (hl : wordOk l = true) : wordOk (c :: l) = true := by
  simp only [wordOk, List.all_cons, Bool.and_eq_true]
  exact ⟨hc, hl⟩

theorem wordOk_getD {xs : List String} (h : (xs.all (fun w => wordOk w.data)) = true)
    (i : Nat) : wordOk ((xs.getD i "").data) = true := by
  induction xs generalizing i with
  | nil => simp [List.getD, wordOk]
  | cons w ws ih =>
    simp only [List.all_cons, Bool.and_eq_true] at h
    cases i with
    | zero => simpa [List.getD] using h.1
    | succ j => simpa [List.getD] using ih h.2 j

theorem mem_trimLeft {c : Char} {l : List Char} (h : c ∈ trimLeft l) : c ∈ l :=
  (List.dropWhile_suffix isSpace).subset h

theorem mem_trimRight {c : Char} {l : List Char} (h : c ∈ trimRight l) : c ∈ l := by
  unfold trimRight at h
  rw [List.mem_reverse] at h
  have := (List.dropWhile_suffix (l := l.reverse) isSpace).subset h
  rwa [List.mem_reverse] at this

theorem mem_jsTrim {c : Char} {l : List Char} (h : c ∈ jsTrim l) : c ∈ l :=
  mem_trimLeft (mem_trimRight h)

theorem wordOk_jsTrim {l : List Char} (h : wordOk l = true) : wordOk (jsTrim l) = true := by
  simp only [wordOk, List.all_eq_true] at h ⊢
  exact fun c hc => h c (mem_jsTrim hc)

theorem wordOk_formatYear (y : Nat) : wordOk (formatYear y) = true := by
  have hones : (onesW.all (fun w => wordOk w.data)) = true := by decide
  have hteens : (teensW.all (fun w => wordOk w.data)) = true := by decide
  have htens : (tensW.all (fun w => wordOk w.data)) = true := by decide
  unfold formatYear
  dsimp only
  split
  · exact wordOk_jsTrim (wordOk_append (by decide) (wordOk_getD hones _))
  · split
    · split
      · exact wordOk_jsTrim (wordOk_append (by decide) (wordOk_getD hones _))
      · split
        · exact wordOk_append (by decide) (wordOk_getD hteens _)
        · exact wordOk_jsTrim (wordOk_append (by decide) (wordOk_getD hones _))
    · apply wordOk_jsTrim
      apply wordOk_append
      · split
        · split
          · exact wordOk_getD hteens _
          · exact wordOk_getD hones _
        · apply wordOk_append (wordOk_getD htens _)
          split
          · exact wordOk_cons (by decide) (wordOk_getD hones _)
          · decide
      · apply wordOk_cons (by decide)
        split
        · decide
        · split
          · exact wordOk_append (by decide) (wordOk_getD hones _)
          · split
            · exact wordOk_getD hteens _
            · apply wordOk_append (wordOk_getD htens _)
              split
              · exact wordOk_cons (by decide) (wordOk_getD hones _)
              · decide

theorem not_mem_of_wordOk {c : Char} {l : List Char}
    (h : wordOk l = true) (hc : (c.isAlpha || c == ' ' || c == '-') = false) : c ∉ l := by
  simp only [wordOk, List.all_eq_true] at h
  intro hm
  rw [h c hm] at hc
  cases hc

/-! ### The bracket-removal pass establishes the invariant -/

theorem bracketStep_open (s : Bool) (rest : List Char) :
    bracketStep s ('[' :: rest) =
      (if rest.takeWhile (fun c => c != ']') == [] then none
       else
         match rest.dropWhile (fun c => c != ']') with
         | ']' :: rem => some (([] : List Char), false, rem)
         | _ => none) := rfl

theorem bracketPass_ok :
    ∀ (fuel : Nat) (s : Bool) (l : List Char), l.length ≤ fuel →
      bracketsOk (scanS bracketStep fuel s l) = true := by
  intro fuel
  induction fuel using Nat.strong_induction_on with
  | _ fuel ih =>
    intro s l hl
    rcases fuel with _ | n
    · have : l = [] := List.eq_nil_of_length_eq_zero (Nat.le_zero.mp hl)
      subst this
      simp [scanS, bracketsOk]
    rcases l with _ | ⟨c, rest⟩
    · simp [scanS, bracketsOk]
    simp only [List.length_cons] at hl
    by_cases hc : c = '['
    · subst hc
      rcases hstep : bracketStep s ('[' :: rest) with _ | ⟨rep, s', rem⟩
      · -- no match at this `[`
        rw [show scanS bracketStep (n + 1) s ('[' :: rest) =
              '[' :: scanS bracketStep n (isWordChar '[') rest from by simp [scanS, hstep]]
        rcases rest with _ | ⟨d, rest2⟩
        · simp [scanS_nil, bracketsOk]
        by_cases hd : d = ']'
        · subst hd
          rcases n with _ | m
          · simp only [List.length_cons] at hl
            omega
          · rw [scanS_cons_nofire (bracketStep_nofire (by decide)) m _ rest2]
            have hr2 := ih m (by omega) (isWordChar ']') rest2
              (by simp only [List.length_cons] at hl; omega)
            simp [bracketsOk, hr2]
        · -- head of `rest` is not `]`: the only way the step failed is that
          -- `rest` contains no `]` at all
          have htw : (d :: rest2).takeWhile (fun x => x != ']') = d :: rest2.takeWhile (fun x => x != ']') := by
            rw [List.takeWhile_cons, if_pos (by simpa using hd)]
          have hnocl : ']' ∉ (d :: rest2) := by
            rcases hdw : (d :: rest2).dropWhile (fun x => x != ']') with _ | ⟨x, xs⟩
            · intro hmem
              have := List.dropWhile_eq_nil_iff.mp hdw _ hmem
              simp at this
            · have hx : x = ']' := by
                have := dropWhile_head_false hdw
                simpa using this
              subst hx
              exfalso
              have hsome := bracketStep_open s (d :: rest2)
              rw [if_neg (by simp [htw]), hdw] at hsome
              rw [hstep] at hsome
              exact absurd hsome.symm (by simp)
          have hw := ih n (by omega) (isWordChar '[') (d :: rest2) (by omega)
          exact bracketsOk_cons_open
            (scanS_absent bracketStep_consumes (bracketStep_repAvoid ']') n _ _ hnocl) hw
      · -- a match: the bracketed block is removed entirely
        have hcons := bracketStep_consumes s _ _ _ _ hstep
        have hrep :=
          fun hm => (bracketStep_repAvoid '[' s _ _ _ _ hstep) hm
        rw [show scanS bracketStep (n + 1) s ('[' :: rest) =
              rep ++ scanS bracketStep n s' rem from by simp [scanS, hstep]]
        have hw := ih n (by omega) s' rem (by
          have := hcons.2
          simp only [List.length_cons] at this
          omega)
        refine bracketsOk_prepend rep (fun x hx heq => ?_) hw
        subst heq
        exact hrep hx
    · rw [scanS_cons_nofire (bracketStep_nofire hc) n s rest]
      have hw := ih n (by omega) (isWordChar c) rest (by omega)
      simp [bracketsOk, if_neg hc, hw]

/-! ### Trimming preserves the invariant -/

theorem bracketsOk_append_spaces :
    ∀ (x sp : List Char), (∀ c ∈ sp, isSpace c = true) →
      bracketsOk (x ++ sp) = true → bracketsOk x = true := by
  intro x
  induction x with
  | nil => intro sp _ _; rfl
  | cons c cs ih =>
    intro sp hsp h
    rw [List.cons_append] at h
    have htail := bracketsOk_tail h
    simp only [bracketsOk, Bool.and_eq_true]
    refine ⟨?_, ih sp hsp htail⟩
    split
    next hco =>
      simp only [bracketsOk, List.cons_append, if_pos hco, Bool.and_eq_true] at h
      rcases Bool.or_eq_true_iff.mp h.1 with h1 | h1
      · -- head of `cs ++ sp` is `]`
        rcases cs with _ | ⟨d, cs2⟩
        · -- then sp starts with `]`, impossible for whitespace
          rcases sp with _ | ⟨e, sp2⟩
          · rfl
          · exfalso
            have he : e = ']' := by simpa using h1
            have := hsp e (List.mem_cons_self _ _)
            rw [he] at this
            cases this
        · apply Bool.or_eq_true_iff.mpr
          left
          show (d == ']') = true
          simpa using h1
      · -- no `]` in `cs ++ sp`
        have : ']' ∉ cs := fun hm => by
          have h2 : ']' ∉ cs ++ sp := by simpa using h1
          exact h2 (List.mem_append_left _ hm)
        have hcont : cs.contains ']' = false := by simpa using this
        rcases cs with _ | ⟨d, cs2⟩
        · rfl
        · simp only [Bool.or_eq_true_iff]
          right
          simpa using this
    next => rfl

theorem bracketsOk_trimRight {l : List Char} (h : bracketsOk l = true) :
    bracketsOk (trimRight l) = true := by
  have hdecomp : l = trimRight l ++ (l.reverse.takeWhile isSpace).reverse := by
    unfold trimRight
    rw [← List.reverse_append, List.takeWhile_append_dropWhile, List.reverse_reverse]
  refine bracketsOk_append_spaces _ _ (fun c hc => ?_) (hdecomp ▸ h)
  rw [List.mem_reverse] at hc
  exact List.mem_takeWhile_imp hc

theorem bracketsOk_jsTrim {l : List Char} (h : bracketsOk l = true) :
    bracketsOk (jsTrim l) = true := by
  unfold jsTrim trimLeft
  apply bracketsOk_trimRight
  obtain ⟨t, ht⟩ := List.dropWhile_suffix (l := l) isSpace
  exact bracketsOk_append_right t _ (ht.symm ▸ h)

/-! ### `cleanText` invariants -/

theorem cleanText_bracketsOk (l : List Char) : bracketsOk (cleanText l) = true := by
  unfold cleanText runScan
  apply bracketsOk_jsTrim
  apply scanS_bracketsOk quoteSStep_consumes (quoteSStep_repAvoid (by decide))
    (quoteSStep_repAvoid (by decide)) (quoteSStep_nofire (by decide))
  apply scanS_bracketsOk quoteDStep_consumes (quoteDStep_repAvoid (by decide))
    (quoteDStep_repAvoid (by decide)) (quoteDStep_nofire (by decide))
  apply scanS_bracketsOk (charStep_consumes _ _) (charStep_repAvoid (by decide))
    (charStep_repAvoid (by decide)) (charStep_nofire _ (by decide))
  apply scanS_bracketsOk (charStep_consumes _ _) (charStep_repAvoid (by decide))
    (charStep_repAvoid (by decide)) (charStep_nofire _ (by decide))
  apply scanS_bracketsOk (charStep_consumes _ _) (charStep_repAvoid (by decide))
    (charStep_repAvoid (by decide)) (charStep_nofire _ (by decide))
  apply scanS_bracketsOk wsStep_consumes (wsStep_repAvoid (by decide))
    (wsStep_repAvoid (by decide)) (wsStep_nofire (by decide))
  apply scanS_bracketsOk (yearTokStep_consumes _ _)
    (yearTokStep_repAvoid (fun a b c d => not_mem_of_wordOk (wordOk_formatYear _) (by decide)))
    (yearTokStep_repAvoid (fun a b c d => not_mem_of_wordOk (wordOk_formatYear _) (by decide)))
    (yearTokStep_nofire (fun _ _ _ => rfl))
  apply scanS_bracketsOk (yearTokStep_consumes _ _)
    (yearTokStep_repAvoid (fun a b c d => not_mem_of_wordOk (wordOk_formatYear _) (by decide)))
    (yearTokStep_repAvoid (fun a b c d => not_mem_of_wordOk (wordOk_formatYear _) (by decide)))
    (yearTokStep_nofire (fun _ _ _ => rfl))
  apply scanS_bracketsOk (yearTokStep_consumes _ _)
    (yearTokStep_repAvoid (fun _ _ _ _ => by decide))
    (yearTokStep_repAvoid (fun _ _ _ _ => by decide))
    (yearTokStep_nofire (fun _ _ _ => rfl))
  apply scanS_bracketsOk (yearTokStep_consumes _ _)
    (yearTokStep_repAvoid (fun _ _ _ _ => by decide))
    (yearTokStep_repAvoid (fun _ _ _ _ => by decide))
    (yearTokStep_nofire (fun _ _ _ => rfl))
  apply scanS_bracketsOk (yearTokStep_consumes _ _)
    (yearTokStep_repAvoid (fun _ _ _ _ => by decide))
    (yearTokStep_repAvoid (fun _ _ _ _ => by decide))
    (yearTokStep_nofire (fun _ _ _ => rfl))
  apply scanS_bracketsOk verbStep_consumes (verbStep_repAvoid (by decide))
    (verbStep_repAvoid (by decide)) (verbStep_nofire_of_verbAlt_none verbAlt_close_none)
  apply scanS_bracketsOk astStep_consumes (astStep_repAvoid _)
    (astStep_repAvoid _) (astStep_nofire (by decide))
  apply scanS_bracketsOk parenStep_consumes (parenStep_repAvoid _)
    (parenStep_repAvoid _) (parenStep_nofire (by decide))
  exact bracketPass_ok _ _ _ le_rfl

theorem cleanText_no_bracket_match (l : List Char) :
    hasBracketMatch (cleanText l) = false :=
  hasBracketMatch_false_of_bracketsOk (cleanText_bracketsOk l)

/-- The three raw-symbol replacements run after every other pass, so no `&`,
`$` or `%` survives in the normalizer's output. -/
theorem tail_symbol_free (x : List Char) :
    '&' ∉ jsTrim (runScan quoteSStep (runScan quoteDStep (runScan percentStep
        (runScan dollarStep (runScan ampStep x))))) ∧
    '$' ∉ jsTrim (runScan quoteSStep (runScan quoteDStep (runScan percentStep
        (runScan dollarStep (runScan ampStep x))))) ∧
    '%' ∉ jsTrim (runScan quoteSStep (runScan quoteDStep (runScan percentStep
        (runScan dollarStep (runScan ampStep x))))) := by
  have hA : '&' ∉ runScan ampStep x := by
    unfold runScan
    exact scanS_elim (charStep_consumes _ _) (charStep_repAvoid (by decide))
      (charStep_fires _ _) _ _ _ le_rfl
  have hD1 : '&' ∉ runScan dollarStep (runScan ampStep x) := by
    unfold runScan
    exact scanS_absent (charStep_consumes _ _) (charStep_repAvoid (by decide)) _ _ _ hA
  have hD2 : '$' ∉ runScan dollarStep (runScan ampStep x) := by
    unfold runScan
    exact scanS_elim (charStep_consumes _ _) (charStep_repAvoid (by decide))
      (charStep_fires _ _) _ _ _ le_rfl
  have hP1 : '&' ∉ runScan percentStep (runScan dollarStep (runScan ampStep x)) := by
    unfold runScan
    exact scanS_absent (charStep_consumes _ _) (charStep_repAvoid (by decide)) _ _ _ hD1
  have hP2 : '$' ∉ runScan percentStep (runScan dollarStep (runScan ampStep x)) := by
    unfold runScan
    exact scanS_absent (charStep_consumes _ _) (charStep_repAvoid (by decide)) _ _ _ hD2
  have hP3 : '%' ∉ runScan percentStep (runScan dollarStep (runScan ampStep x)) := by
    unfold runScan
    exact scanS_elim (charStep_consumes _ _) (charStep_repAvoid (by decide))
      (charStep_fires _ _) _ _ _ le_rfl
  have hQ1 : '&' ∉ runScan quoteDStep (runScan percentStep (runScan dollarStep
      (runScan ampStep x))) := by
    unfold runScan
    exact scanS_absent quoteDStep_consumes (quoteDStep_repAvoid (by decide)) _ _ _ hP1
  have hQ2 : '$' ∉ runScan quoteDStep (runScan percentStep (runScan dollarStep
      (runScan ampStep x))) := by
    unfold runScan
    exact scanS_absent quoteDStep_consumes (quoteDStep_repAvoid (by decide)) _ _ _ hP2
  have hQ3 : '%' ∉ runScan quoteDStep (runScan percentStep (runScan dollarStep
      (runScan ampStep x))) := by
    unfold runScan
    exact scanS_absent quoteDStep_consumes (quoteDStep_repAvoid (by decide)) _ _ _ hP3
  have hS1 : '&' ∉ runScan quoteSStep (runScan quoteDStep (runScan percentStep
      (runScan dollarStep (runScan ampStep x)))) := by
    unfold runScan
    exact scanS_absent quoteSStep_consumes (quoteSStep_repAvoid (by decide)) _ _ _ hQ1
  have hS2 : '$' ∉ runScan quoteSStep (runScan quoteDStep (runScan percentStep
      (runScan dollarStep (runScan ampStep x)))) := by
    unfold runScan
    exact scanS_absent quoteSStep_consumes (quoteSStep_repAvoid (by decide)) _ _ _ hQ2
  have hS3 : '%' ∉ runScan quoteSStep (runScan quoteDStep (runScan percentStep
      (runScan dollarStep (runScan ampStep x)))) := by
    unfold runScan
    exact scanS_absent quoteSStep_consumes (quoteSStep_repAvoid (by decide)) _ _ _ hQ3
  exact ⟨fun h => hS1 (mem_jsTrim h), fun h => hS2 (mem_jsTrim h), fun h => hS3 (mem_jsTrim h)⟩

theorem cleanText_symbol_free (l : List Char) :
    '&' ∉ cleanText l ∧ '$' ∉ cleanText l ∧ '%' ∉ cleanText l := by
  unfold cleanText
  exact tail_symbol_free _

/-! ### Speakers in the parser state -/

theorem flushSeg_segsOk {st : PState} (h1 : speakerOkS st.speaker) (h2 : segsOk st.segs) :
    segsOk (flushSeg st) := by
  unfold flushSeg
  split
  next sp hsp =>
    split
    · exact h2
    · intro seg hseg
      rcases List.mem_append.mp hseg with h | h
      · exact h2 seg h
      · have hs : seg = ⟨sp, jsTrim (List.intercalate [' '] st.buf)⟩ := by simpa using h
        subst hs
        rcases h1 with h | h | h <;> rw [hsp] at h
        · cases h
        · simp only [Option.some.injEq] at h
          exact Or.inl h
        · simp only [Option.some.injEq] at h
          exact Or.inr h
  next => exact h2

theorem pStep_inv {st : PState} (h1 : speakerOkS st.speaker) (h2 : segsOk st.segs)
    (line : List Char) :
    speakerOkS (pStep st line).speaker ∧ segsOk (pStep st line).segs := by
  unfold pStep
  dsimp only
  split
  · exact ⟨h1, h2⟩
  split
  next cap hh => exact ⟨Or.inr (Or.inl rfl), flushSeg_segsOk h1 h2⟩
  next hh =>
    split
    next cap he => exact ⟨Or.inr (Or.inr rfl), flushSeg_segsOk h1 h2⟩
    next he =>
      split
      next sp hsp =>
        split
        · exact ⟨h1, h2⟩
        · exact ⟨h1, h2⟩
      next hsp => exact ⟨h1, h2⟩

theorem foldl_pStep_inv (lines : List (List Char)) :
    ∀ st : PState, speakerOkS st.speaker → segsOk st.segs →
      speakerOkS (lines.foldl pStep st).speaker ∧ segsOk (lines.foldl pStep st).segs := by
  induction lines with
  | nil => intro st h1 h2; exact ⟨h1, h2⟩
  | cons l ls ih =>
    intro st h1 h2
    have h := pStep_inv h1 h2 l
    simpa [List.foldl_cons] using ih _ h.1 h.2

theorem rawSegments_segsOk (t : List Char) : segsOk (rawSegments t) := by
  unfold rawSegments
  have h := foldl_pStep_inv (splitOnChar '\n' t) ⟨none, [], []⟩ (Or.inl rfl)
    (fun seg hseg => absurd hseg (List.not_mem_nil seg))
  exact flushSeg_segsOk h.1 h.2

theorem parseScript_segment_shape {t : List Char} {seg : Segment}
    (h : seg ∈ (parseScript t).segments) :
    ∃ s0 ∈ rawSegments t, 10 < s0.text.length ∧
      seg.speaker = s0.speaker ∧ seg.text = cleanText s0.text := by
  unfold parseScript at h
  dsimp only at h
  rw [List.mem_map] at h
  obtain ⟨s0, hs0, hseg⟩ := h
  have hf := List.mem_filter.mp hs0
  refine ⟨s0, hf.1, by simpa using hf.2, ?_, ?_⟩ <;> rw [← hseg]

/-! ## Claim C1 -/

set_option maxHeartbeats 2000000 in
/--
C1, counterexample.  The claim "every segment of `parse(t)` has speaker HOST
or EXPERT, and its text is non-empty and contains no square-bracketed
substring, no parenthetical performance-verb phrase, and no literal `&`, `$`
or `%`" (`c1SegOk`) is false as stated: on the transcript below, the first
segment's raw text `[xxxxxxxxxxxx]` passes the length-10 filter and then
cleans to the empty string, and the second segment's `(chu*) (*ckl)` is
reassembled by the asterisk-removal pass into the parenthetical verb phrase
`(chuckl)`, which the (earlier) parenthesis pass can no longer remove.
-/
theorem c1_counterexample :
    ¬ ∀ seg ∈ (parseScript
        "[HOST]: [xxxxxxxxxxxx]\n[EXPERT]: aaaa (chu*) (*ckl) bbbb".data).segments,
      c1SegOk seg = true := by decide

/--
C1, amended: for every input transcript, every segment of `parseScript`
has speaker `host` or `expert`, and its text contains no square-bracketed
substring `[…]` (with non-empty bracket content) and no literal `&`, `$`
or `%`.  (The non-emptiness and absence of parenthetical performance-verb
phrases asserted by the original claim do not hold; see
`c1_counterexample`.)
-/
theorem c1_segment_invariant (t : List Char) (seg : Segment)
    (h : seg ∈ (parseScript t).segments) :
    (seg.speaker = "host" ∨ seg.speaker = "expert") ∧
    hasBracketMatch seg.text = false ∧
    '&' ∉ seg.text ∧ '$' ∉ seg.text ∧ '%' ∉ seg.text := by
  obtain ⟨s0, hs0, -, hsp, htx⟩ := parseScript_segment_shape h
  rw [hsp, htx]
  have hsym := cleanText_symbol_free s0.text
  exact ⟨rawSegments_segsOk t s0 hs0, cleanText_no_bracket_match s0.text,
    hsym.1, hsym.2.1, hsym.2.2⟩

set_option maxHeartbeats 2000000 in
/-- C1 witness: the amended invariant instantiated on a concrete transcript
and segment. -/
theorem c1_segment_invariant_witness :
    (⟨"host", "Welcome everybody friends".data⟩ : Segment) ∈
      (parseScript "[HOST]: Welcome everybody friends".data).segments ∧
    ((⟨"host", "Welcome everybody friends".data⟩ : Segment).speaker = "host" ∨
      (⟨"host", "Welcome everybody friends".data⟩ : Segment).speaker = "expert") ∧
    hasBracketMatch (⟨"host", "Welcome everybody friends".data⟩ : Segment).text = false ∧
    '&' ∉ (⟨"host", "Welcome everybody friends".data⟩ : Segment).text ∧
    '$' ∉ (⟨"host", "Welcome everybody friends".data⟩ : Segment).text ∧
    '%' ∉ (⟨"host", "Welcome everybody friends".data⟩ : Segment).text :=
  ⟨by decide, c1_segment_invariant "[HOST]: Welcome everybody friends".data
    ⟨"host", "Welcome everybody friends".data⟩ (by decide)⟩

/-! ## Claim C3 (code bug in year verbalization) -/

set_option maxHeartbeats 2000000 in
/--
C3: of the spec's four year-verbalization examples, three hold, but
`normalize("by 2024")` yields `"by twenty four"` — it does **not** contain
`"twenty twenty-four"`.  The source's `formatYear` doc comment itself promises
`2024 -> "twenty twenty-four"`, yet its 2010–2029 branch returns
`` `twenty ${ones[lastTwo % 10]}` `` for `lastTwo ≥ 20`, dropping the decade
word: the code contradicts its own documentation (code bug).
-/
theorem c3_year_verbalization :
    cleanText "In 1776 it happened".data = "In seventeen seventy-six it happened".data ∧
    infixB "seventeen seventy-six".data (cleanText "In 1776 it happened".data) = true ∧
    cleanText "by 2024".data = "by twenty four".data ∧
    infixB "twenty twenty-four".data (cleanText "by 2024".data) = false ∧
    cleanText "in 2005".data = "in two thousand five".data ∧
    infixB "two thousand five".data (cleanText "in 2005".data) = true ∧
    cleanText "3000".data = "3000".data := by
  exact ⟨by decide, by decide, by decide, by decide, by decide, by decide, by decide⟩

/-! ## Claim C4 -/

/--
C4, counterexample.  On the spec's own example transcript
`"[HOST]: A\n[EXPERT]: B\n[HOST]: C"`, `parseScript` does **not** return the
three segments: each raw text is a single character, so all three are removed
by the `text.length > 10` filter, and the segment list is empty.
-/
theorem c4_counterexample :
    (parseScript "[HOST]: A\n[EXPERT]: B\n[HOST]: C".data).segments = [] ∧
    (parseScript "[HOST]: A\n[EXPERT]: B\n[HOST]: C".data).segments ≠
      [⟨"host", "A".data⟩, ⟨"expert", "B".data⟩, ⟨"host", "C".data⟩] := by
  exact ⟨by decide, by decide⟩

/--
C4, amended: segment ordering is preserved once each speech is long enough to
pass the minimum-length filter — with twelve-character texts the transcript
parses to exactly the three segments in order.
-/
theorem c4_order_preserved :
    (parseScript
      "[HOST]: AAAAAAAAAAAA\n[EXPERT]: BBBBBBBBBBBB\n[HOST]: CCCCCCCCCCCC".data).segments =
      [⟨"host", "AAAAAAAAAAAA".data⟩, ⟨"expert", "BBBBBBBBBBBB".data⟩,
        ⟨"host", "CCCCCCCCCCCC".data⟩] := by decide

/-! ## Claim C5 -/

/--
C5, counterexample.  When the generation call fails, `expandContent` returns
`{ ...article, expanded: false }` — and on a document without an `expanded`
key that object is not deep-equal to the input document.
-/
theorem c5_counterexample :
    expandContent ⟨"T", "some body", 2, none⟩ 2000 (.error "service failed") ≠
      ⟨"T", "some body", 2, none⟩ := by decide

/--
C5, amended: if the generation-service call inside `expandContent` throws,
no exception propagates (the embedding returns an `Article`, not an error)
and the result is the input document unchanged except that its `expanded`
flag is set to `false`: title, body and word count are exactly the input's.
-/
theorem c5_failure_isolation (a : Article) (tw : Nat) (e : String) :
    expandContent a tw (.error e) = { a with expanded := some false } ∧
    (expandContent a tw (.error e)).title = a.title ∧
    (expandContent a tw (.error e)).content = a.content ∧
    (expandContent a tw (.error e)).wordCount = a.wordCount :=
  ⟨rfl, rfl, rfl, rfl⟩

/-! ## Claim C7 -/

theorem splitOnChar_ne_nil (sep : Char) : ∀ l : List Char, splitOnChar sep l ≠ [] := by
  intro l
  cases l with
  | nil => simp [splitOnChar]
  | cons c rest =>
    simp only [splitOnChar]
    split
    · simp
    · split
      next h => simp
      next h => simp

theorem splitOnChar_length (sep : Char) :
    ∀ l : List Char, (splitOnChar sep l).length = l.count sep + 1 := by
  intro l
  induction l with
  | nil => simp [splitOnChar]
  | cons c rest ih =>
    simp only [splitOnChar]
    split
    next hc =>
      have hc' : c = sep := by simpa using hc
      simp only [List.length_cons, ih, List.count_cons, hc']
      simp
    next hc =>
      have hc' : ¬(sep == c) = true := by
        simp only [beq_iff_eq] at hc ⊢
        exact fun h => hc h.symm
      rcases hs : splitOnChar sep rest with _ | ⟨h0, t0⟩
      · exact absurd hs (splitOnChar_ne_nil sep rest)
      · simp only [List.length_cons, List.count_cons]
        rw [hs] at ih
        simp only [List.length_cons] at ih
        simp [hc', ih]
        simpa using hc

theorem foldl_add_map_sum (f : Segment → Nat) :
    ∀ (segs : List Segment) (n : Nat),
      segs.foldl (fun sum s => sum + f s) n = n + (segs.map f).sum := by
  intro segs
  induction segs with
  | nil => intro n; simp
  | cons s ss ih =>
    intro n
    simp only [List.foldl_cons, List.map_cons, List.sum_cons, ih]
    omega

/--
C7, counterexample.  `totalWords` is computed with `text.split(' ').length`,
which counts empty pieces: on `"[HOST]: aaaa & bbbb"` the cleaned text is
`"aaaa  and  bbbb"` (the `&` replacement runs after whitespace collapsing and
introduces double spaces), giving `totalWords = 5` while the whitespace-
delimited token count is `3`.
-/
theorem c7_counterexample :
    (parseScript "[HOST]: aaaa & bbbb".data).totalWords ≠
      ((parseScript "[HOST]: aaaa & bbbb".data).segments.map
        (fun s => countWords s.text)).sum := by decide

/--
C7, amended: for every transcript, `totalWords` equals the sum over segments
of one plus the number of space characters of the segment's text (the length
of the JavaScript `split(' ')`, which counts empty pieces — not the
whitespace-delimited token count), and `estimatedMinutes` is
`Math.round(totalWords / 150)`, i.e. the half-up rounding characterized by
`300·est ≤ 2·totalWords + 150 < 300·est + 300`; in particular 1500 words at
150 words per minute give 10 minutes.
-/
theorem c7_totalWords (t : List Char) :
    (parseScript t).totalWords =
      ((parseScript t).segments.map (fun s => s.text.count ' ' + 1)).sum ∧
    (parseScript t).estimatedMinutes = jsRound (parseScript t).totalWords wordsPerMinute ∧
    300 * (parseScript t).estimatedMinutes ≤ 2 * (parseScript t).totalWords + 150 ∧
    2 * (parseScript t).totalWords + 150 < 300 * (parseScript t).estimatedMinutes + 300 ∧
    jsRound 1500 150 = 10 := by
  have htw : (parseScript t).totalWords =
      ((parseScript t).segments.map (fun s => (splitOnChar ' ' s.text).length)).sum := by
    unfold parseScript
    dsimp only
    rw [foldl_add_map_sum]
    simp
  have hcount : (parseScript t).totalWords =
      ((parseScript t).segments.map (fun s => s.text.count ' ' + 1)).sum := by
    rw [htw]
    congr 1
    apply List.map_congr_left
    intro s _
    rw [splitOnChar_length]
  have hest : (parseScript t).estimatedMinutes = jsRound (parseScript t).totalWords wordsPerMinute := rfl
  refine ⟨hcount, hest, ?_, ?_, by decide⟩
  all_goals
    rw [hest]
    unfold jsRound wordsPerMinute
    have hdm := Nat.div_add_mod (2 * (parseScript t).totalWords + 150) 300
    have hmlt : (2 * (parseScript t).totalWords + 150) % 300 < 300 :=
      Nat.mod_lt _ (by norm_num)
    omega

/-! ## Claim C8 -/

/--
C8: `parseScript` drops every raw segment whose joined pre-normalization text
is 5 characters long: the final segment list is the cleaned image of exactly
the raw segments longer than 10 characters, and a 5-character raw segment
never passes that filter.
-/
theorem c8_min_length (t : List Char) (s : Segment) (h5 : s.text.length = 5) :
    s ∉ (rawSegments t).filter (fun x => decide (10 < x.text.length)) ∧
    (parseScript t).segments =
      ((rawSegments t).filter (fun x => decide (10 < x.text.length))).map
        (fun x => { x with text := cleanText x.text }) ∧
    (parseScript t).segments.length =
      ((rawSegments t).filter (fun x => decide (10 < x.text.length))).length := by
  refine ⟨?_, rfl, by simp [parseScript]⟩
  intro hmem
  have := (List.mem_filter.mp hmem).2
  simp only [decide_eq_true_eq] at this
  omega

/-- C8 witness: a concrete 5-character raw segment (`"abcde"`) is parsed out
of the final script. -/
theorem c8_min_length_witness :
    (⟨"host", "abcde".data⟩ : Segment) ∉
      (rawSegments "[HOST]: abcde".data).filter (fun x => decide (10 < x.text.length)) ∧
    (parseScript "[HOST]: abcde".data).segments = [] :=
  ⟨(c8_min_length "[HOST]: abcde".data ⟨"host", "abcde".data⟩ (by decide)).1, by decide⟩

/-! ## Claim C10 -/

theorem splitOnChar_append (sep : Char) :
    ∀ (p r : List Char),
      splitOnChar sep (p ++ sep :: r) = splitOnChar sep p ++ splitOnChar sep r := by
  intro p
  induction p with
  | nil => intro r; simp [splitOnChar]
  | cons c cs ih =>
    intro r
    simp only [List.cons_append, splitOnChar, List.append_eq]
    split
    · rw [ih]
      rfl
    · rcases h0 : splitOnChar sep cs with _ | ⟨hd, tl⟩
      · exact absurd h0 (splitOnChar_ne_nil sep cs)
      · rw [ih, h0]
        rfl

theorem pStep_init_nontag {line : List Char}
    (h1 : hostTag (jsTrim line) = none) (h2 : expertTag (jsTrim line) = none) :
    pStep ⟨none, [], []⟩ line = ⟨none, [], []⟩ := by
  unfold pStep
  dsimp only
  split
  · rfl
  · rw [h1]
    dsimp only
    rw [h2]

theorem foldl_preamble (lines : List (List Char))
    (h : ∀ line ∈ lines, hostTag (jsTrim line) = none ∧ expertTag (jsTrim line) = none) :
    lines.foldl pStep ⟨none, [], []⟩ = ⟨none, [], []⟩ := by
  induction lines with
  | nil => rfl
  | cons l ls ih =>
    rw [List.foldl_cons,
      pStep_init_nontag (h l (List.mem_cons_self _ _)).1 (h l (List.mem_cons_self _ _)).2]
    exact ih (fun x hx => h x (List.mem_cons_of_mem _ hx))

/--
C10: lines occurring before the first recognized speaker-tag line are
discarded entirely — parsing `preamble ++ "\n" ++ rest` yields exactly the
Script of `rest` alone whenever no preamble line is recognized as a host or
expert tag, so no preamble character can reach any segment.
-/
theorem c10_preamble (p r : List Char)
    (hp : ∀ line ∈ splitOnChar '\n' p,
      hostTag (jsTrim line) = none ∧ expertTag (jsTrim line) = none) :
    parseScript (p ++ '\n' :: r) = parseScript r := by
  have hraw : rawSegments (p ++ '\n' :: r) = rawSegments r := by
    unfold rawSegments
    rw [splitOnChar_append, List.foldl_append, foldl_preamble _ hp]
  unfold parseScript
  rw [hraw]

/-- C10 witness: a concrete two-line preamble is discarded. -/
theorem c10_preamble_witness :
    parseScript ("Here is your podcast script".data ++ '\n' ::
      "[HOST]: Welcome everybody friends".data) =
      parseScript "[HOST]: Welcome everybody friends".data :=
  c10_preamble "Here is your podcast script".data
    "[HOST]: Welcome everybody friends".data (by decide)

/-! ## Claim C9 -/

theorem hostTagE (x : List Char) : hostTag ('E' :: x) = none := rfl

theorem expertTag_emily (z : List Char) :
    expertTag ('E' :: 'M' :: 'I' :: 'L' :: 'Y' :: ':' :: z) = none := rfl

theorem hostTag_aria (z : List Char) :
    hostTag ('A' :: 'R' :: 'I' :: 'A' :: ':' :: z) = none := rfl

theorem expertTag_aria (z : List Char) :
    expertTag ('A' :: 'R' :: 'I' :: 'A' :: ':' :: z) = none := rfl

theorem bracketOnly_E (x : List Char) : bracketOnly ('E' :: x) = false := rfl

theorem bracketOnly_A (x : List Char) : bracketOnly ('A' :: x) = false := rfl

theorem trimRight_cons_nonspace {c : Char} (x : List Char) (hc : isSpace c = false) :
    trimRight (c :: x) = c :: trimRight x := by
  unfold trimRight
  rw [List.reverse_cons, List.dropWhile_append]
  split
  next hemp =>
    rw [List.isEmpty_iff] at hemp
    rw [hemp]
    simp [List.dropWhile, hc]
  next hemp =>
    rw [List.reverse_append]
    simp

theorem jsTrim_emily (y : List Char) :
    jsTrim ("EMILY: ".data ++ y) =
      'E' :: 'M' :: 'I' :: 'L' :: 'Y' :: ':' :: trimRight (' ' :: y) := by
  unfold jsTrim
  have h1 : trimLeft ("EMILY: ".data ++ y) = "EMILY: ".data ++ y := by
    unfold trimLeft
    rw [show ("EMILY: ".data ++ y) = 'E' :: ("MILY: ".data ++ y) from rfl]
    rw [List.dropWhile_cons, if_neg (by decide)]
  rw [h1]
  rw [show ("EMILY: ".data ++ y) = 'E' :: 'M' :: 'I' :: 'L' :: 'Y' :: ':' :: (' ' :: y) from rfl]
  rw [trimRight_cons_nonspace _ (by decide), trimRight_cons_nonspace _ (by decide),
      trimRight_cons_nonspace _ (by decide), trimRight_cons_nonspace _ (by decide),
      trimRight_cons_nonspace _ (by decide), trimRight_cons_nonspace _ (by decide)]

theorem jsTrim_aria (y : List Char) :
    jsTrim ("ARIA: ".data ++ y) =
      'A' :: 'R' :: 'I' :: 'A' :: ':' :: trimRight (' ' :: y) := by
  unfold jsTrim
  have h1 : trimLeft ("ARIA: ".data ++ y) = "ARIA: ".data ++ y := by
    unfold trimLeft
    rw [show ("ARIA: ".data ++ y) = 'A' :: ("RIA: ".data ++ y) from rfl]
    rw [List.dropWhile_cons, if_neg (by decide)]
  rw [h1]
  rw [show ("ARIA: ".data ++ y) = 'A' :: 'R' :: 'I' :: 'A' :: ':' :: (' ' :: y) from rfl]
  rw [trimRight_cons_nonspace _ (by decide), trimRight_cons_nonspace _ (by decide),
      trimRight_cons_nonspace _ (by decide), trimRight_cons_nonspace _ (by decide),
      trimRight_cons_nonspace _ (by decide)]

theorem pStep_emily_some (y : List Char) (sp : String) (buf : List (List Char))
    (segs : List Segment) :
    pStep ⟨some sp, buf, segs⟩ ("EMILY: ".data ++ y) =
      ⟨some sp, buf ++ [jsTrim ("EMILY: ".data ++ y)], segs⟩ := by
  unfold pStep
  dsimp only
  rw [jsTrim_emily]
  simp [hostTagE, expertTag_emily, bracketOnly_E]

theorem pStep_emily_none (y : List Char) (buf : List (List Char)) (segs : List Segment) :
    pStep ⟨none, buf, segs⟩ ("EMILY: ".data ++ y) = ⟨none, buf, segs⟩ := by
  unfold pStep
  dsimp only
  rw [jsTrim_emily]
  simp [hostTagE, expertTag_emily]

theorem pStep_aria_some (y : List Char) (sp : String) (buf : List (List Char))
    (segs : List Segment) :
    pStep ⟨some sp, buf, segs⟩ ("ARIA: ".data ++ y) =
      ⟨some sp, buf ++ [jsTrim ("ARIA: ".data ++ y)], segs⟩ := by
  unfold pStep
  dsimp only
  rw [jsTrim_aria]
  simp [hostTag_aria, expertTag_aria, bracketOnly_A]

theorem pStep_aria_none (y : List Char) (buf : List (List Char)) (segs : List Segment) :
    pStep ⟨none, buf, segs⟩ ("ARIA: ".data ++ y) = ⟨none, buf, segs⟩ := by
  unfold pStep
  dsimp only
  rw [jsTrim_aria]
  simp [hostTag_aria, expertTag_aria]

theorem hostTag_cases (r : List Char) :
    hostTag r = none ∨ stripPrefixCI "[host]".data r ≠ none ∨
      stripPrefixCI "host:".data r ≠ none ∨ stripPrefixCI "andrew:".data r ≠ none := by
  rcases h1 : stripPrefixCI "[host]".data r with _ | x
  · rcases h2 : stripPrefixCI "host:".data r with _ | x
    · rcases h3 : stripPrefixCI "andrew:".data r with _ | x
      · left
        unfold hostTag
        rw [h1, h2, h3]
      · exact Or.inr (Or.inr (Or.inr (by simp [h3])))
    · exact Or.inr (Or.inr (Or.inl (by simp [h2])))
  · exact Or.inr (Or.inl (by simp [h1]))

theorem expertTag_cases (r : List Char) :
    expertTag r = none ∨ stripPrefixCI "[expert]".data r ≠ none ∨
      stripPrefixCI "expert:".data r ≠ none ∨ stripPrefixCI "ava:".data r ≠ none := by
  rcases h1 : stripPrefixCI "[expert]".data r with _ | x
  · rcases h2 : stripPrefixCI "expert:".data r with _ | x
    · rcases h3 : stripPrefixCI "ava:".data r with _ | x
      · left
        unfold expertTag
        rw [h1, h2, h3]
      · exact Or.inr (Or.inr (Or.inr (by simp [h3])))
    · exact Or.inr (Or.inr (Or.inl (by simp [h2])))
  · exact Or.inr (Or.inl (by simp [h1]))

/--
C9: the recognized speaker-tag prefixes are exactly `[HOST]`, `HOST:`,
`ANDREW:` for host and `[EXPERT]`, `EXPERT:`, `AVA:` for expert
(case-insensitively): each of these is accepted with any inline remainder; a
tag can only be recognized via one of those case-insensitive prefixes; and a
line beginning with `EMILY:` (the very name the generation prompt assigns to
the second speaker) or `ARIA:` is never a tag line — with a current speaker
it is pushed onto the continuation buffer, and with no speaker it is
discarded.
-/
theorem c9_speaker_aliases (r y : List Char) (sp : String)
    (buf : List (List Char)) (segs : List Segment) :
    (hostTag ("[HOST]".data ++ r)).isSome = true ∧
    (hostTag ("HOST:".data ++ r)).isSome = true ∧
    (hostTag ("ANDREW:".data ++ r)).isSome = true ∧
    (expertTag ("[EXPERT]".data ++ r)).isSome = true ∧
    (expertTag ("EXPERT:".data ++ r)).isSome = true ∧
    (expertTag ("AVA:".data ++ r)).isSome = true ∧
    (hostTag r = none ∨ stripPrefixCI "[host]".data r ≠ none ∨
      stripPrefixCI "host:".data r ≠ none ∨ stripPrefixCI "andrew:".data r ≠ none) ∧
    (expertTag r = none ∨ stripPrefixCI "[expert]".data r ≠ none ∨
      stripPrefixCI "expert:".data r ≠ none ∨ stripPrefixCI "ava:".data r ≠ none) ∧
    hostTag ("EMILY:".data ++ y) = none ∧
    expertTag ("EMILY:".data ++ y) = none ∧
    hostTag ("ARIA:".data ++ y) = none ∧
    expertTag ("ARIA:".data ++ y) = none ∧
    pStep ⟨some sp, buf, segs⟩ ("EMILY: ".data ++ y) =
      ⟨some sp, buf ++ [jsTrim ("EMILY: ".data ++ y)], segs⟩ ∧
    pStep ⟨none, buf, segs⟩ ("EMILY: ".data ++ y) = ⟨none, buf, segs⟩ ∧
    pStep ⟨some sp, buf, segs⟩ ("ARIA: ".data ++ y) =
      ⟨some sp, buf ++ [jsTrim ("ARIA: ".data ++ y)], segs⟩ ∧
    pStep ⟨none, buf, segs⟩ ("ARIA: ".data ++ y) = ⟨none, buf, segs⟩ :=
  ⟨rfl, rfl, rfl, rfl, rfl, rfl, hostTag_cases r, expertTag_cases r,
    hostTagE _, expertTag_emily _, hostTag_aria _, expertTag_aria _,
    pStep_emily_some y sp buf segs, pStep_emily_none y buf segs,
    pStep_aria_some y sp buf segs, pStep_aria_none y buf segs⟩

/-! ## Claim C2 -/

theorem trigger_of_nofire {T : Char → Prop}
    {step : Bool → List Char → Option (List Char × Bool × List Char)}
    (h : ∀ x, ¬ T x → StepNoFire x step) : StepTrigger T step := by
  intro s c r hne
  by_contra hc
  exact hne (h c hc s r)

theorem tame_char_ne {c x : Char} (h : (c.isAlpha || c == ' ') = true)
    (hx : (x.isAlpha || x == ' ') = false) : c ≠ x := by
  intro he
  subst he
  rw [h] at hx
  cases hx

theorem tame_space_is_space {c : Char} (h : (c.isAlpha || c == ' ') = true)
    (hs : isSpace c = true) : c = ' ' := by
  unfold isSpace at hs
  simp only [Bool.or_eq_true_iff, beq_iff_eq] at hs
  rcases hs with ((((h1 | h1) | h1) | h1) | h1) | h1
  · exact h1
  all_goals (subst h1; exact absurd h (by decide))

theorem noDoubleSpace_tail {c : Char} {rest : List Char}
    (h : noDoubleSpace (c :: rest) = true) : noDoubleSpace rest = true := by
  cases rest with
  | nil => rfl
  | cons d r2 =>
    simp only [noDoubleSpace, Bool.and_eq_true] at h
    exact h.2

theorem stripPrefixCI_lower :
    ∀ (p l r : List Char), stripPrefixCI p l = some r → toLowerL p <+: toLowerL l := by
  intro p
  induction p with
  | nil => intro l r _; exact List.nil_prefix
  | cons p ps ih =>
    intro l r h
    cases l with
    | nil => simp [stripPrefixCI] at h
    | cons c cs =>
      simp only [stripPrefixCI] at h
      split at h
      next hcp =>
        have hih := ih cs r h
        simp only [toLowerL, List.map_cons]
        rw [show Char.toLower c = Char.toLower p from beq_iff_eq.mp hcp]
        exact List.cons_prefix_cons.mpr ⟨rfl, hih⟩
      next => exact absurd h (by simp)

theorem infixB_correct (t : List Char) : ∀ l : List Char, infixB t l = true ↔ t <:+: l := by
  intro l
  induction l with
  | nil =>
    constructor
    · intro h
      have ht : t = [] := by simpa [infixB, List.isEmpty_iff] using h
      subst ht
      exact List.infix_refl _
    · intro h
      have ht : t = [] := List.sublist_nil.mp h.sublist
      subst ht
      rfl
  | cons c rest ih =>
    simp only [infixB, Bool.or_eq_true_iff, List.isPrefixOf_iff_prefix, ih]
    constructor
    · rintro (h | h)
      · exact h.isInfix
      · exact List.infix_cons h
    · intro h
      exact (List.infix_cons_iff.mp h).imp id id

/-- Every successful verb-phrase match starts with a word whose
case-insensitive prefix contains one of the parenthetical-regex verb stems. -/
theorem tryVerbMatch_stem {l : List Char} {pr : Bool × List Char}
    (h : tryVerbMatch l = some pr) :
    ∃ st ∈ stems, infixB st.data (toLowerL l) = true := by
  unfold tryVerbMatch at h
  rcases hv : verbAlt l with _ | r1
  · rw [hv] at h; cases h
  · clear h
    unfold verbAlt at hv
    rcases h1 : stripFirstCI verbWords l with _ | r'
    · rw [h1] at hv
      simp only [Option.map_none', Option.none_orElse] at hv
      simp only [clearsThroat, bind, Option.bind_eq_some] at hv
      obtain ⟨r2, hr2, -⟩ := hv
      refine ⟨"clear", by decide, ?_⟩
      have hp := stripPrefixCI_lower _ _ _ hr2
      rw [show toLowerL "clear".data = "clear".data from by decide] at hp
      exact (infixB_correct _ _).mpr hp.isInfix
    · obtain ⟨w, hw, h2⟩ := stripFirstCI_exists _ _ _ h1
      have hp := stripPrefixCI_lower _ _ _ h2
      have hall : ∀ w ∈ verbWords, ∃ st ∈ stems,
          toLowerL st.data <+: toLowerL w.data := by decide
      have hlow : ∀ st ∈ stems, toLowerL st.data = st.data := by decide
      obtain ⟨st, hstm, hpre⟩ := hall w hw
      refine ⟨st, hstm, (infixB_correct _ _).mpr ?_⟩
      rw [← hlow st hstm]
      exact (hpre.trans hp).isInfix

theorem tryVerbMatch_none_of_noStem {l : List Char}
    (h : ∀ st ∈ stems, infixB st.data (toLowerL l) = false) : tryVerbMatch l = none := by
  rcases hm : tryVerbMatch l with _ | pr
  · rfl
  · obtain ⟨st, hst, hinf⟩ := tryVerbMatch_stem hm
    rw [h st hst] at hinf
    cases hinf

theorem scanS_verbStep_noop :
    ∀ (fuel : Nat) (s : Bool) (l : List Char),
      (∀ l', l' <:+ l → tryVerbMatch l' = none) → scanS verbStep fuel s l = l := by
  intro fuel
  induction fuel with
  | zero => intro s l _; simp [scanS]
  | succ n ih =>
    intro s l h
    cases l with
    | nil => simp [scanS]
    | cons c rest =>
      have hstep : verbStep s (c :: rest) = none := by
        unfold verbStep
        split
        · rfl
        · rw [h (c :: rest) (List.suffix_refl _)]
      simp only [scanS, hstep]
      rw [ih _ rest (fun l' hl' => h l' (hl'.trans (List.suffix_cons c rest)))]

theorem scanS_wsStep_noop :
    ∀ (fuel : Nat) (s : Bool) (l : List Char),
      (∀ c ∈ l, isSpace c = true → c = ' ') → noDoubleSpace l = true →
      scanS wsStep fuel s l = l := by
  intro fuel
  induction fuel with
  | zero => intro s l _ _; simp [scanS]
  | succ n ih =>
    intro s l hsp hnd
    cases l with
    | nil => simp [scanS]
    | cons c rest =>
      by_cases hc : isSpace c = true
      · have hc' : c = ' ' := hsp c (List.mem_cons_self _ _) hc
        have hstep : wsStep s (c :: rest) = some ([' '], false, rest.dropWhile isSpace) := by
          dsimp only [wsStep]
          rw [if_pos hc]
        have hdrop : rest.dropWhile isSpace = rest := by
          cases rest with
          | nil => rfl
          | cons d rest2 =>
            have hd : isSpace d = false := by
              simp only [noDoubleSpace, Bool.and_eq_true] at hnd
              have h1 := hnd.1
              simp only [Bool.not_eq_eq_eq_not, Bool.not_true, Bool.and_eq_false_iff] at h1
              rcases h1 with h1 | h1
              · rw [hc] at h1; cases h1
              · exact h1
            rw [List.dropWhile_cons, if_neg (by simp [hd])]
        simp only [scanS, hstep, hdrop]
        rw [ih false rest (fun x hx hsx => hsp x (List.mem_cons_of_mem _ hx) hsx)
          (noDoubleSpace_tail hnd)]
        rw [hc']
        rfl
      · have hstep : wsStep s (c :: rest) = none := by
          dsimp only [wsStep]
          rw [if_neg hc]
        simp only [scanS, hstep]
        rw [ih _ rest (fun x hx hsx => hsp x (List.mem_cons_of_mem _ hx) hsx)
          (noDoubleSpace_tail hnd)]

theorem jsTrim_noop {l : List Char}
    (hh : (match l.head? with | some c => !isSpace c | none => true) = true)
    (hl : (match l.getLast? with | some c => !isSpace c | none => true) = true) :
    jsTrim l = l := by
  unfold jsTrim
  have h1 : trimLeft l = l := by
    unfold trimLeft
    cases l with
    | nil => rfl
    | cons c rest =>
      simp only [List.head?_cons] at hh
      rw [List.dropWhile_cons, if_neg (by simpa using hh)]
  rw [h1]
  unfold trimRight
  have h2 : l.reverse.dropWhile isSpace = l.reverse := by
    cases hrev : l.reverse with
    | nil => rfl
    | cons c rest =>
      have hlast : l.getLast? = some c := by
        rw [← List.head?_reverse, hrev]
        rfl
      rw [hlast] at hl
      rw [List.dropWhile_cons, if_neg (by simpa using hl)]
  rw [h2, List.reverse_reverse]

/-- On tame text (letters and single interior spaces, no verb stem) every
pass of the normalizer is the identity. -/
theorem cleanText_tame_id {s : List Char} (h : tame s = true) : cleanText s = s := by
  unfold tame at h
  obtain ⟨h4, hStem⟩ := Bool.and_eq_true_iff.mp h
  obtain ⟨h3, hLast⟩ := Bool.and_eq_true_iff.mp h4
  obtain ⟨h2a, hHead⟩ := Bool.and_eq_true_iff.mp h3
  obtain ⟨hAlpha, hND⟩ := Bool.and_eq_true_iff.mp h2a
  rw [List.all_eq_true] at hAlpha
  have hStem' : ∀ st ∈ stems, infixB st.data (toLowerL s) = false := by
    rw [List.all_eq_true] at hStem
    intro st hst
    simpa using hStem st hst
  have hb : runScan bracketStep s = s := by
    unfold runScan
    exact scanS_noop (trigger_of_nofire (fun x hx => bracketStep_nofire hx)) _ _ _
      (fun c hc => tame_char_ne (hAlpha c hc) (by decide))
  have hpn : runScan parenStep s = s := by
    unfold runScan
    exact scanS_noop (trigger_of_nofire (fun x hx => parenStep_nofire hx)) _ _ _
      (fun c hc => tame_char_ne (hAlpha c hc) (by decide))
  have hast : runScan astStep s = s := by
    unfold runScan
    exact scanS_noop (trigger_of_nofire (fun x hx => astStep_nofire hx)) _ _ _
      (fun c hc => tame_char_ne (hAlpha c hc) (by decide))
  have hv : runScan verbStep s = s := by
    unfold runScan
    apply scanS_verbStep_noop
    intro l' hl'
    apply tryVerbMatch_none_of_noStem
    intro st hst
    cases hb2 : infixB st.data (toLowerL l')
    · rfl
    · exfalso
      have h1 : st.data <:+: toLowerL l' := (infixB_correct _ _).mp hb2
      have h2 : toLowerL l' <:+ toLowerL s := hl'.map Char.toLower
      have h3 := (infixB_correct st.data (toLowerL s)).mpr (h1.trans h2.isInfix)
      rw [hStem' st hst] at h3
      cases h3
  have hyearT : ∀ (c : Char), c ∈ s → ¬(c = '1' ∨ c = '2') := by
    intro c hc
    rintro (rfl | rfl) <;> exact absurd (hAlpha _ hc) (by decide)
  have hy76 : runScan y1776Step s = s := by
    unfold runScan
    exact scanS_noop (yearTokStep_trigger (fun a b c d hpred =>
      Or.inl (beq_iff_eq.mp
        (Bool.and_eq_true_iff.mp
          (Bool.and_eq_true_iff.mp (Bool.and_eq_true_iff.mp hpred).1).1).1))) _ _ _ hyearT
  have hy87 : runScan y1787Step s = s := by
    unfold runScan
    exact scanS_noop (yearTokStep_trigger (fun a b c d hpred =>
      Or.inl (beq_iff_eq.mp
        (Bool.and_eq_true_iff.mp
          (Bool.and_eq_true_iff.mp (Bool.and_eq_true_iff.mp hpred).1).1).1))) _ _ _ hyearT
  have hy89 : runScan y1789Step s = s := by
    unfold runScan
    exact scanS_noop (yearTokStep_trigger (fun a b c d hpred =>
      Or.inl (beq_iff_eq.mp
        (Bool.and_eq_true_iff.mp
          (Bool.and_eq_true_iff.mp (Bool.and_eq_true_iff.mp hpred).1).1).1))) _ _ _ hyearT
  have hy14 : runScan yr14Step s = s := by
    unfold runScan
    exact scanS_noop (yearTokStep_trigger (fun a b c d hpred =>
      Or.inl (beq_iff_eq.mp
        (Bool.and_eq_true_iff.mp
          (Bool.and_eq_true_iff.mp (Bool.and_eq_true_iff.mp hpred).1).1).1))) _ _ _ hyearT
  have hy20 : runScan yr20Step s = s := by
    unfold runScan
    exact scanS_noop (yearTokStep_trigger (fun a b c d hpred =>
      Or.inr (beq_iff_eq.mp
        (Bool.and_eq_true_iff.mp
          (Bool.and_eq_true_iff.mp (Bool.and_eq_true_iff.mp hpred).1).1).1))) _ _ _ hyearT
  have hws : runScan wsStep s = s := by
    unfold runScan
    exact scanS_wsStep_noop _ _ _
      (fun c hc hsx => tame_space_is_space (hAlpha c hc) hsx) hND
  have hamp : runScan ampStep s = s := by
    unfold runScan
    exact scanS_noop (trigger_of_nofire (fun x hx => charStep_nofire _ hx)) _ _ _
      (fun c hc => tame_char_ne (hAlpha c hc) (by decide))
  have hdol : runScan dollarStep s = s := by
    unfold runScan
    exact scanS_noop (trigger_of_nofire (fun x hx => charStep_nofire _ hx)) _ _ _
      (fun c hc => tame_char_ne (hAlpha c hc) (by decide))
  have hpct : runScan percentStep s = s := by
    unfold runScan
    exact scanS_noop (trigger_of_nofire (fun x hx => charStep_nofire _ hx)) _ _ _
      (fun c hc => tame_char_ne (hAlpha c hc) (by decide))
  have hqD : runScan quoteDStep s = s := by
    unfold runScan
    exact scanS_noop (trigger_of_nofire (fun x hx => quoteDStep_nofire hx)) _ _ _
      (fun c hc => by rintro (rfl | rfl) <;> exact absurd (hAlpha _ hc) (by decide))
  have hqS : runScan quoteSStep s = s := by
    unfold runScan
    exact scanS_noop (trigger_of_nofire (fun x hx => quoteSStep_nofire hx)) _ _ _
      (fun c hc => by rintro (rfl | rfl) <;> exact absurd (hAlpha _ hc) (by decide))
  unfold cleanText
  rw [hb, hpn, hast, hv, hy76, hy87, hy89, hy14, hy20, hws, hamp, hdol, hpct, hqD, hqS]
  exact jsTrim_noop hHead hLast

/--
C2, counterexample.  The normalizer is not idempotent: the `&` replacement
runs after whitespace collapsing, so `cleanText "& x" = "and  x"` (with a
double space) while a second application collapses it to `"and x"`.
-/
theorem c2_counterexample :
    cleanText (cleanText "& x".data) ≠ cleanText "& x".data := by decide

/--
C2, amended: the normalizer is not idempotent in general (see
`c2_counterexample`; symbol expansion introduces double spaces that only a
second pass collapses, and removal passes can splice new removable phrases
together).  It is the identity — hence idempotent — on tame text: strings of
letters and single interior spaces containing no performance-verb stem.
-/
theorem c2_idempotent_on_tame (s : List Char) (h : tame s = true) :
    cleanText s = s ∧ cleanText (cleanText s) = cleanText s := by
  refine ⟨cleanText_tame_id h, ?_⟩
  rw [cleanText_tame_id h]
  exact cleanText_tame_id h

/-- C2 witness: idempotence instantiated on `"hello world"`. -/
theorem c2_idempotent_witness :
    tame "hello world".data = true ∧
    cleanText (cleanText "hello world".data) = cleanText "hello world".data :=
  ⟨by decide, (c2_idempotent_on_tame "hello world".data (by decide)).2⟩

end RLP
